import Mathlib

/-!
# DataStructures: randomized binary search tree, chained hash set, linked list

A shallow embedding of `Tree/RandomizedBST/treeset-private.hpp`,
`HashTable/hashset-private.hpp` and `LinkedList/intlist.cpp`, with the properties
proved about them.

Conventions of the embedding:

* a `Node*` is a value of the inductive type `Node`: `Node.null` is `nullptr`,
  `Node.mk value left right size` is a pointer to a heap node with these four fields;
* a function that takes a slot `Node*&` and overwrites it returns the new content of
  the slot;
* dereferencing `nullptr` is undefined behaviour in the source; here the function
  returns `none`;
* `size_t`/`int` counters are natural numbers (no tree or table of `2^31` nodes is
  considered);
* the generator `gen_` is the stream of the outputs it is going to produce;
* the elements of an `IntList` live in a store of numbered cells, an `Element*` is
  `nullptr` or the number of a cell, and a loop over a chain of elements takes the
  number of rounds it may run as an argument.
-/

namespace RandomizedBST

/-- A `Node*` of `treeset.hpp`: null, or a node holding `value_`, `left_`, `right_`,
`size_` (the order of the arguments of the constructor `Node(value, left, right, size)`). -/
inductive Node (α : Type) where
  | null : Node α
  | mk (value_ : α) (left_ : Node α) (right_ : Node α) (size_ : Nat) : Node α
  deriving DecidableEq

/-- The state of `std::mt19937 gen_`: the outputs still to come, `g 0` first. -/
abbrev Gen := Nat → Nat

/-- One call `gen_()`: the output, and the generator after the call. -/
def Gen.next (g : Gen) : Nat × Gen := (g 0, fun n => g (n + 1))

variable {α : Type}

/-- Source function `sizeNode`: 0 for `nullptr`, else the stored field `size_`. -/
def sizeNode : Node α → Nat
  | .null => 0
  | .mk _ _ _ s => s

/-- Source function `heightNode`: -1 for `nullptr`, else one more than the higher child. -/
def heightNode : Node α → Int
  | .null => -1
  | .mk _ l r _ => 1 + max (heightNode l) (heightNode r)

/-- Source function `fixSizeRight`: `here->size_` becomes `sizeNode(here->right_) +
sizeNode(here->left_->right_)`, then `here->left_->size_` becomes the old
`sizeNode(here)`. -/
def fixSizeRight : Node α → Option (Node α)
  | .mk v (.mk bv bl br _) r s =>
      let hereSize := s
      some (.mk v (.mk bv bl br hereSize) r (sizeNode r + sizeNode br))
  | _ => none

/-- Source function `fixSizeLeft`: `here->size_` becomes `sizeNode(here->left_) +
sizeNode(here->right_->left_)`, then `here->right_->size_` becomes the old
`sizeNode(here)`. -/
def fixSizeLeft : Node α → Option (Node α)
  | .mk v l (.mk dv dl dr _) s =>
      let hereSize := s
      some (.mk v l (.mk dv dl dr hereSize) (sizeNode l + sizeNode dl))
  | _ => none

/-- Source function `rightRotate`: after `fixSizeRight`, `b = here->left_`,
`here->left_ = b->right_`, `b->right_ = here`, and the slot holds `b`. -/
def rightRotate (here : Node α) : Option (Node α) :=
  match fixSizeRight here with
  | some (.mk v (.mk bv bl br bs) r s) => some (.mk bv bl (.mk v br r s) bs)
  | _ => none

/-- Source function `leftRotate`: after `fixSizeLeft`, `d = here->right_`,
`here->right_ = d->left_`, `d->left_ = here`, and the slot holds `d`. -/
def leftRotate (here : Node α) : Option (Node α) :=
  match fixSizeLeft here with
  | some (.mk v l (.mk dv dl dr ds) s) => some (.mk dv (.mk v l dl s) dr ds)
  | _ => none

/-- Source function `insertNodeAtRoot`: a fresh node of size 1 in an empty slot; else the size of
`here` is incremented, the value is inserted at the root of the left (right) child
and `here` is rotated right (left). -/
def insertNodeAtRoot [LT α] [DecidableRel (α := α) (· < ·)] :
    Node α → α → Option (Node α)
  | .null, value => some (.mk value .null .null 1)
  | .mk v l r s, value =>
      if value < v then
        match insertNodeAtRoot l value with
        | some l1 => rightRotate (.mk v l1 r (s + 1))
        | none => none
      else
        match insertNodeAtRoot r value with
        | some r1 => leftRotate (.mk v l r1 (s + 1))
        | none => none

/-- Source function `insertNode`: one draw of the generator modulo `sizeNode(here)+1`; on 0 the item
is inserted at the root of `here`, else `here->value_` is read, `here->size_` is
incremented and the insertion goes on in the right child when `here->value_ < item`,
in the left child otherwise. -/
def insertNode [LT α] [DecidableRel (α := α) (· < ·)] (item : α) :
    Node α → Gen → Option (Node α × Gen)
  | .null, g =>
      if g.next.1 % (sizeNode (Node.null : Node α) + 1) = 0 then
        (insertNodeAtRoot .null item).map (fun t => (t, g.next.2))
      else none
  | .mk v l r s, g =>
      if g.next.1 % (sizeNode (Node.mk v l r s) + 1) = 0 then
        (insertNodeAtRoot (.mk v l r s) item).map (fun t => (t, g.next.2))
      else if v < item then
        match insertNode item r g.next.2 with
        | some (r1, g1) => some (.mk v l r1 (s + 1), g1)
        | none => none
      else
        match insertNode item l g.next.2 with
        | some (l1, g1) => some (.mk v l1 r (s + 1), g1)
        | none => none

/-- Source function `nodeExists`: the binary search of `item` below `here`. -/
def nodeExists [LT α] [DecidableRel (α := α) (· < ·)] (item : α) : Node α → Bool
  | .null => false
  | .mk v l r _ =>
      if item < v then nodeExists item l
      else if v < item then nodeExists item r
      else true


/-- What one `<<` writes to the output stream: a string literal of the source, or a
value of the element type (printed by the `operator<<` of the element type). -/
inductive Chunk (α : Type) where
  | text (s : String) : Chunk α
  | value (v : α) : Chunk α
  deriving DecidableEq

/-- An `ostream`: what has been written to it so far, the oldest chunk first. -/
abbrev OStream (α : Type) := List (Chunk α)

/-- The characters of one chunk, for a given way of printing the element type. -/
def Chunk.str (sh : α → String) : Chunk α → String
  | .text s => s
  | .value v => sh v

/-- The characters in the stream, for a given way of printing the element type. -/
def OStream.contents (sh : α → String) : OStream α → String
  | [] => ""
  | c :: cs => c.str sh ++ OStream.contents sh cs

/-- The values written to the stream, in the order they were written. -/
def OStream.values : OStream α → List α
  | [] => []
  | .text _ :: cs => OStream.values cs
  | .value v :: cs => v :: OStream.values cs

/-- Source function `nodePrint`: `-` for `nullptr`; else `(`, the left child, `, `, the value, `, `,
the right child, `)`. The stream written to is returned. -/
def nodePrint (out : OStream α) : Node α → OStream α
  | .null => out ++ [.text "-"]
  | .mk v l r _ =>
      let out1 := out ++ [.text "("]
      let out2 := nodePrint out1 l
      let out3 := out2 ++ [.text ", ", .value v, .text ", "]
      let out4 := nodePrint out3 r
      out4 ++ [.text ")"]

/-- The class `TreeSet<T>`: its two data members. -/
structure TreeSet (α : Type) where
  root_ : Node α
  gen_ : Gen

/-- The constructor `TreeSet()`: no root, and a generator seeded from
`std::random_device`, that is, any stream of outputs. -/
def TreeSet.new (seeded : Gen) : TreeSet α := ⟨.null, seeded⟩

/-- Source function `TreeSet::size`. -/
def TreeSet.size (t : TreeSet α) : Nat := sizeNode t.root_

/-- Source function `TreeSet::height`. -/
def TreeSet.height (t : TreeSet α) : Int := heightNode t.root_

/-- Source function `TreeSet::insert`: `insertNode(item, root_)`, which draws from `gen_`. -/
def TreeSet.insert [LT α] [DecidableRel (α := α) (· < ·)] (t : TreeSet α) (item : α) :
    Option (TreeSet α) :=
  match insertNode item t.root_ t.gen_ with
  | some (r, g) => some ⟨r, g⟩
  | none => none

/-- Source function `TreeSet::exists`. -/
def TreeSet.exists [LT α] [DecidableRel (α := α) (· < ·)] (t : TreeSet α) (item : α) :
    Bool :=
  nodeExists item t.root_

/-- Source function `TreeSet::print`. -/
def TreeSet.print (t : TreeSet α) (out : OStream α) : OStream α := nodePrint out t.root_

/-- A sequence of `insert` calls, the first item of the list first. -/
def TreeSet.insertMany [LT α] [DecidableRel (α := α) (· < ·)] (t : TreeSet α) :
    List α → Option (TreeSet α)
  | [] => some t
  | x :: xs =>
      match t.insert x with
      | some t1 => TreeSet.insertMany t1 xs
      | none => none

/-! ### The notions of the specification -/

/-- In-order traversal: left subtree, value, right subtree. -/
def inorder : Node α → List α
  | .null => []
  | .mk v l r _ => inorder l ++ v :: inorder r

/-- The number of nodes actually in a subtree. -/
def count : Node α → Nat
  | .null => 0
  | .mk _ l r _ => 1 + count l + count r

/-- Invariant I1 (BST order): at every node, every value of the left subtree is
strictly less than the value of the node and every value of the right subtree strictly
greater. -/
def I1 [LT α] : Node α → Prop
  | .null => True
  | .mk v l r _ =>
      (∀ x ∈ inorder l, x < v) ∧ (∀ x ∈ inorder r, v < x) ∧ I1 l ∧ I1 r

/-- Invariant I2 (size consistency): at every node, `size_` is one more than the
sizes of the two children, the size of an absent child being 0. -/
def I2 : Node α → Prop
  | .null => True
  | .mk _ l r s => s = 1 + sizeNode l + sizeNode r ∧ I2 l ∧ I2 r

/-- The grammar of the printed form: `-` for an absent subtree, else
`(` left `, ` value `, ` right `)`. -/
def render (sh : α → String) : Node α → String
  | .null => "-"
  | .mk v l r _ => "(" ++ render sh l ++ ", " ++ sh v ++ ", " ++ render sh r ++ ")"

end RandomizedBST

namespace HashTable

variable {α : Type}

/-- The class `HashSet<T>`: its data members. `table_` is the array of `numBuckets_`
chain pointers, a chain pointer being `nullptr` (`none`) or a `forward_list`
(`some chain`, the front of the list first). -/
structure HashSet (α : Type) where
  size_ : Nat
  numBuckets_ : Nat
  reallocations_ : Nat
  collisions_ : Nat
  maximalChainSize_ : Nat
  table_ : List (Option (List α))

/-- The constant `LOAD_FACTOR` of `hashset.hpp`. -/
def LOAD_FACTOR : Nat := 4

/-- The default constructor: the in-class initialisers of `hashset.hpp`, a table of
one null chain pointer. -/
def HashSet.new : HashSet α :=
  { size_ := 0, numBuckets_ := 1, reallocations_ := 0, collisions_ := 0,
    maximalChainSize_ := 0, table_ := List.replicate 1 none }

/-- Source function `HashSet::size`. -/
def HashSet.size (s : HashSet α) : Nat := s.size_

/-- Source function `HashSet::buckets`. -/
def HashSet.buckets (s : HashSet α) : Nat := s.numBuckets_

/-- Source function `HashSet::overloaded`:
`double(size_)/double(numBuckets_) >= LOAD_FACTOR`. The quotient is at least 4 exactly
when `size_` is at least `4 * numBuckets_`: counters below `2^53` convert to `double`
without rounding, and `numBuckets_`, 1 doubled some number of times, divides without
rounding. -/
def HashSet.overloaded (s : HashSet α) : Bool :=
  decide (LOAD_FACTOR * s.numBuckets_ ≤ s.size_)

/-- Source function `HashSet::exists`: the chain of bucket `myhash(item) % buckets()`
is searched for an element equal to the item; a null chain holds nothing. Reading the table out of
its bounds, or reducing modulo 0, gives `none`. -/
def HashSet.exists [DecidableEq α] (myhash : α → Nat) (s : HashSet α) (item : α) :
    Option Bool :=
  if s.buckets = 0 then none
  else
    let hashed := myhash item
    let bucket := hashed % s.buckets
    match s.table_[bucket]? with
    | none => none
    | some none => some false
    | some (some chain) => some (chain.any (fun i => decide (i = item)))

/-- Source function `HashSet::insertWholeList`, for a given `insert`: the elements of the list are
inserted from its front to its end. -/
def insertWholeListWith (ins : HashSet α → α → Option (HashSet α)) :
    HashSet α → List α → Option (HashSet α)
  | s, [] => some s
  | s, i :: rest =>
      match ins s i with
      | some s1 => insertWholeListWith ins s1 rest
      | none => none

/-- The loop `for (i = 0; i < oldSize; ++i)` of `HashSet::resize`, for a given
`insert`, from index `i` with `todo` rounds to go: a non-null `oldTable[i]` is
inserted whole. -/
def resizeLoopWith (ins : HashSet α → α → Option (HashSet α))
    (oldTable : List (Option (List α))) : Nat → Nat → HashSet α → Option (HashSet α)
  | 0, _, s => some s
  | todo + 1, i, s =>
      match oldTable[i]? with
      | none => none
      | some none => resizeLoopWith ins oldTable todo (i + 1) s
      | some (some chain) =>
          match insertWholeListWith ins s chain with
          | some s1 => resizeLoopWith ins oldTable todo (i + 1) s1
          | none => none

/-- Source function `HashSet::resize`, for a given `insert`: the three counters are reset, the table
is replaced by one of twice as many null chain pointers, every chain of the old table
is inserted whole, and `reallocations_` is incremented. -/
def resizeWith (ins : HashSet α → α → Option (HashSet α)) (s : HashSet α) :
    Option (HashSet α) :=
  let oldSize := s.numBuckets_
  let oldTable := s.table_
  let s0 : HashSet α :=
    { s with maximalChainSize_ := 0, collisions_ := 0, size_ := 0,
             numBuckets_ := 2 * oldSize, table_ := List.replicate (2 * oldSize) none }
  match resizeLoopWith ins oldTable oldSize 0 s0 with
  | some s1 => some { s1 with reallocations_ := s1.reallocations_ + 1 }
  | none => none

/-- Source function `HashSet::insert`. The counters are incremented, the item is pushed on the front
of the chain of bucket `myhash(item) % buckets()` (a new chain when the pointer is
null, and then `collisions_` is decremented again), `maximalChainSize_` is raised to
the length of the chain, and an overloaded table is resized. `insert` and `resize` call
each other: `depth` bounds the nesting of these calls, and `none` is returned when it
is used up. -/
def HashSet.insert (myhash : α → Nat) : Nat → HashSet α → α → Option (HashSet α)
  | 0, _, _ => none
  | depth + 1, s, item =>
      if s.buckets = 0 then none
      else
        let size1 := s.size_ + 1
        let collisions1 := s.collisions_ + 1
        let hashed := myhash item
        let bucket := hashed % s.buckets
        match s.table_[bucket]? with
        | none => none
        | some chain =>
            let collisions2 := if chain.isNone then collisions1 - 1 else collisions1
            let chain1 := item :: chain.getD []
            let chainSize := chain1.length
            let maximal1 :=
              if chainSize > s.maximalChainSize_ then chainSize else s.maximalChainSize_
            let s1 : HashSet α :=
              { s with size_ := size1, collisions_ := collisions2,
                       maximalChainSize_ := maximal1,
                       table_ := s.table_.set bucket (some chain1) }
            if s1.overloaded then resizeWith (HashSet.insert myhash depth) s1
            else some s1

/-- Source function `HashSet::resize`, with the nesting bound passed on to `insert`. -/
def HashSet.resize (myhash : α → Nat) (depth : Nat) (s : HashSet α) : Option (HashSet α) :=
  resizeWith (HashSet.insert myhash depth) s

/-- Source function `HashSet::insertWholeList`, with the nesting bound passed on to `insert`. -/
def HashSet.insertWholeList (myhash : α → Nat) (depth : Nat) (s : HashSet α)
    (list : List α) : Option (HashSet α) :=
  insertWholeListWith (HashSet.insert myhash depth) s list

/-- A sequence of `insert` calls, the first item of the list first. -/
def HashSet.insertMany (myhash : α → Nat) (depth : Nat) :
    HashSet α → List α → Option (HashSet α)
  | s, [] => some s
  | s, x :: xs =>
      match HashSet.insert myhash depth s x with
      | some s1 => HashSet.insertMany myhash depth s1 xs
      | none => none

/-- The items in the table: the chains of the buckets one after the other. -/
def HashSet.items (s : HashSet α) : List α :=
  (s.table_.map (fun c => c.getD [])).flatten

/-- The sum of the lengths of all bucket chains. -/
def HashSet.chainLengths (s : HashSet α) : Nat :=
  (s.table_.map (fun c => (c.getD []).length)).sum

/-- The representation invariant of the table: there is at least one bucket, the
table has `numBuckets_` entries, every item of the chain of bucket `i` hashes to `i`
modulo `numBuckets_`, and `size_` is the sum of the lengths of the chains. -/
def HashSet.WF (myhash : α → Nat) (s : HashSet α) : Prop :=
  0 < s.numBuckets_ ∧ s.table_.length = s.numBuckets_
    ∧ (∀ (i : Nat) (chain : List α), s.table_[i]? = some (some chain) →
        ∀ x ∈ chain, myhash x % s.numBuckets_ = i)
    ∧ s.size_ = s.chainLengths

end HashTable

namespace RandomizedBST

variable {α : Type}

/-- The shape of a tree: its values and the parent/child links between them, the
stored sizes forgotten (all set to 0). -/
def shape : Node α → Node α
  | .null => .null
  | .mk v l r _ => .mk v (shape l) (shape r) 0

/-- The value at the root of a non-empty slot. -/
def rootValue : Node α → Option α
  | .null => none
  | .mk v _ _ _ => some v

end RandomizedBST

namespace LinkedList

/-- An `Element*`: `nullptr` (`none`) or the address of an element. -/
abbrev Ptr := Option Nat

/-- The struct `IntList::Element`: a value and the pointer to the next element. -/
structure Element where
  value_ : Int
  next_ : Ptr
  deriving DecidableEq

/-- The free store of elements: address `n` is the `n`-th element handed out by `new`,
and holds `none` once the element has been deleted. An address is never handed out
twice. -/
abbrev Heap := List (Option Element)

/-- Reading through a pointer: `none` for `nullptr`, for a deleted element and for an
address never handed out (undefined behaviour in the source). -/
def Heap.read (h : Heap) : Ptr → Option Element
  | none => none
  | some a => (h[a]?).getD none

/-- The expression `new Element{value, next}`: the store with the new element, and
the pointer to it. -/
def Heap.alloc (h : Heap) (e : Element) : Heap × Ptr := (h ++ [some e], some h.length)

/-- An assignment to a member of the element at address `a`. -/
def Heap.write (h : Heap) (a : Nat) (e : Element) : Heap := h.set a (some e)

/-- The statement `delete` on the element at address `a`. -/
def Heap.free (h : Heap) (a : Nat) : Heap := h.set a none

/-- The class `IntList::Iterator`: its data member. -/
structure Iterator where
  current_ : Ptr
  deriving DecidableEq

/-- The class `IntList`: its three data members, and the store holding the elements
the list has allocated. -/
structure IntList where
  back_ : Ptr
  front_ : Ptr
  size_ : Nat
  heap : Heap

/-- The constructor `IntList()`. -/
def IntList.new : IntList := { back_ := none, front_ := none, size_ := 0, heap := [] }

/-- Source function `IntList::size`. -/
def IntList.size (l : IntList) : Nat := l.size_

/-- Source function `IntList::empty`. -/
def IntList.empty (l : IntList) : Bool := l.size_ == 0

/-- Source function `IntList::begin`. -/
def IntList.begin (l : IntList) : Iterator := ⟨l.front_⟩

/-- Source function `IntList::end`. -/
def IntList.end_ (_l : IntList) : Iterator := ⟨none⟩

/-- Source function `Iterator::operator++`: `current_ = current_->next_`. -/
def Iterator.incr (h : Heap) (it : Iterator) : Option Iterator :=
  match h.read it.current_ with
  | some e => some ⟨e.next_⟩
  | none => none

/-- Source function `Iterator::operator*`: `current_->value_`. -/
def Iterator.deref (h : Heap) (it : Iterator) : Option Int :=
  match h.read it.current_ with
  | some e => some e.value_
  | none => none

/-- Source function `Iterator::operator==`. -/
def Iterator.eq (it rhs : Iterator) : Bool := decide (rhs.current_ = it.current_)

/-- Source function `Iterator::operator!=`. -/
def Iterator.ne (it rhs : Iterator) : Bool := !(it.eq rhs)

/-- Source function `IntList::push_front`: a new element in front of `front_`, `size_`
incremented, and `back_` set to it when the size has become 1. -/
def IntList.push_front (l : IntList) (pushee : Int) : IntList :=
  let (heap1, front1) := l.heap.alloc ⟨pushee, l.front_⟩
  let size1 := l.size_ + 1
  let back1 := if size1 = 1 then front1 else l.back_
  { back_ := back1, front_ := front1, size_ := size1, heap := heap1 }

/-- Source function `IntList::pop_front`: the assertion `!empty()`, then the value of
the first element is read, `front_` moves to its `next_`, `size_` is decremented and
the element is deleted. The value and the list are returned. -/
def IntList.pop_front (l : IntList) : Option (Int × IntList) :=
  if l.empty then none
  else
    match l.front_ with
    | none => none
    | some a =>
        match l.heap.read (some a) with
        | none => none
        | some first =>
            some (first.value_,
              { back_ := l.back_, front_ := first.next_, size_ := l.size_ - 1,
                heap := l.heap.free a })

/-- Source function `IntList::push_back`: a new last element without `next_`; on a
non-empty list `back_->next_` is set to it, on an empty list `front_`; then `back_`
is set to it and `size_` incremented. -/
def IntList.push_back (l : IntList) (pushee : Int) : Option IntList :=
  let (heap1, last) := l.heap.alloc ⟨pushee, none⟩
  if !l.empty then
    match l.back_ with
    | none => none
    | some b =>
        match heap1.read (some b) with
        | none => none
        | some e =>
            some { back_ := last, front_ := l.front_, size_ := l.size_ + 1,
                   heap := heap1.write b { e with next_ := last } }
  else
    some { back_ := last, front_ := last, size_ := l.size_ + 1, heap := heap1 }

/-- Source function `IntList::insert_after`: a new element pointing to the `next_` of
the element under the iterator, which is made to point to the new element; `size_` is
incremented. -/
def IntList.insert_after (l : IntList) (whereIt : Iterator) (value : Int) :
    Option IntList :=
  match whereIt.current_ with
  | none => none
  | some c =>
      match l.heap.read (some c) with
      | none => none
      | some e =>
          let (heap1, inserted) := l.heap.alloc ⟨value, e.next_⟩
          some { back_ := l.back_, front_ := l.front_, size_ := l.size_ + 1,
                 heap := heap1.write c { e with next_ := inserted } }

/-- The loop `for (it = ...; it != end(); ++it)` of a client reading `*it`: the values
read, in order. The number of rounds is bounded by `fuel`. -/
def IntList.forwardFrom (l : IntList) : Nat → Iterator → Option (List Int)
  | 0, it => if it.ne l.end_ then none else some []
  | fuel + 1, it =>
      if it.ne l.end_ then
        match it.deref l.heap, it.incr l.heap with
        | some v, some it1 => (IntList.forwardFrom l fuel it1).map (fun vs => v :: vs)
        | _, _ => none
      else some []

/-- Forward iteration from `begin()` to `end()`. -/
def IntList.elements (l : IntList) (fuel : Nat) : Option (List Int) :=
  l.forwardFrom fuel l.begin

/-- The loop of `IntList::operator==`: `b` runs over `rhs` up to `rhs.end()`, `a` over
the list itself in step; `false` at the first `*b != *a`, `true` when `b` reaches the
end. The number of rounds is bounded by `fuel`. -/
def IntList.eqLoop (l rhs : IntList) : Nat → Iterator → Iterator → Option Bool
  | 0, _, b => if b.ne rhs.end_ then none else some true
  | fuel + 1, a, b =>
      if b.ne rhs.end_ then
        match b.deref rhs.heap, a.deref l.heap with
        | some vb, some va =>
            if vb ≠ va then some false
            else
              match a.incr l.heap, b.incr rhs.heap with
              | some a1, some b1 => IntList.eqLoop l rhs fuel a1 b1
              | _, _ => none
        | _, _ => none
      else some true

/-- Source function `IntList::operator==`: `false` when the sizes differ, else the
element by element comparison. -/
def IntList.eq (fuel : Nat) (l rhs : IntList) : Option Bool :=
  if l.size_ ≠ rhs.size_ then some false
  else l.eqLoop rhs fuel l.begin rhs.begin

/-- Source function `IntList::operator!=`: the negation of `operator==`. -/
def IntList.ne (fuel : Nat) (l rhs : IntList) : Option Bool :=
  match IntList.eq fuel l rhs with
  | some r => some (!r)
  | none => none

/-- A call of one of the three members that `IntList::operator==` is studied with. -/
inductive Call where
  | push_front (pushee : Int) : Call
  | push_back (pushee : Int) : Call
  | pop_front : Call
  deriving DecidableEq

/-- One call on a list; the value `pop_front` returns is dropped. -/
def IntList.call (l : IntList) : Call → Option IntList
  | .push_front v => some (l.push_front v)
  | .push_back v => l.push_back v
  | .pop_front =>
      match l.pop_front with
      | some (_, l1) => some l1
      | none => none

/-- A sequence of calls on a list, the first call of the sequence first. -/
def IntList.calls (l : IntList) : List Call → Option IntList
  | [] => some l
  | c :: cs =>
      match l.call c with
      | some l1 => IntList.calls l1 cs
      | none => none

/-- A chain of elements in the store: from the pointer `p` on, the elements at the
listed addresses hold the listed values, each pointing to the next, the last one to
`nullptr`. -/
def Chain (h : Heap) : Ptr → List (Nat × Int) → Prop
  | p, [] => p = none
  | p, c :: rest =>
      p = some c.1 ∧ ∃ n, h.read (some c.1) = some ⟨c.2, n⟩ ∧ Chain h n rest

/-- The representation invariant of a list: `front_` starts a chain of `size_`
elements at pairwise different addresses, and `back_` points to the last of them. -/
def IntList.WF (l : IntList) (cs : List (Nat × Int)) : Prop :=
  Chain l.heap l.front_ cs ∧ (cs.map Prod.fst).Nodup ∧ l.size_ = cs.length
    ∧ ∀ c ∈ cs.getLast?, l.back_ = some c.1

end LinkedList

namespace RandomizedBST

variable {α : Type}

/-! ### Rotations and insertion at the root -/

theorem rightRotate_mk (v bv : α) (bl br r : Node α) (bs s : Nat) :
    rightRotate (.mk v (.mk bv bl br bs) r s)
      = some (.mk bv bl (.mk v br r (sizeNode r + sizeNode br)) s) := rfl

theorem leftRotate_mk (v dv : α) (l dl dr : Node α) (ds s : Nat) :
    leftRotate (.mk v l (.mk dv dl dr ds) s)
      = some (.mk dv (.mk v l dl (sizeNode l + sizeNode dl)) dr s) := rfl

/-- Insertion at the root never dereferences `nullptr`; the slot then holds a node
with the new value, whose stored size is one more than the old stored size of the slot, and
whose two subtrees split the old in-order sequence in two. When the old sequence is
strictly increasing and lacks the value, the left part is below it and the right part
above. -/
theorem insertNodeAtRoot_shape [LinearOrder α] (here : Node α) (value : α) :
    ∃ l r, insertNodeAtRoot here value = some (.mk value l r (sizeNode here + 1))
      ∧ inorder l ++ inorder r = inorder here
      ∧ ((inorder here).Sorted (· < ·) → value ∉ inorder here →
          (∀ x ∈ inorder l, x < value) ∧ (∀ x ∈ inorder r, value < x)) := by
  induction here with
  | null => exact ⟨.null, .null, rfl, rfl, fun _ _ => by simp [inorder]⟩
  | mk v l r s ihl ihr =>
    by_cases h : value < v
    · obtain ⟨ll, lr, e, hio, hb⟩ := ihl
      refine ⟨ll, .mk v lr r (sizeNode r + sizeNode lr), ?_, ?_, ?_⟩
      · simp [insertNodeAtRoot, h, e, rightRotate_mk, sizeNode]
      · simp [inorder, ← hio]
      · intro hs hn
        simp only [inorder, List.mem_append, List.mem_cons, not_or] at hn
        simp only [inorder, List.Sorted, List.pairwise_append, List.pairwise_cons] at hs
        obtain ⟨hsl, ⟨hvr, _⟩, hlr⟩ := hs
        obtain ⟨h1, h2⟩ := hb hsl hn.1
        refine ⟨h1, ?_⟩
        intro x hx
        simp only [inorder, List.mem_append, List.mem_cons] at hx
        rcases hx with hx | rfl | hx
        · exact h2 x hx
        · exact h
        · exact lt_trans h (hvr x hx)
    · obtain ⟨rl, rr, e, hio, hb⟩ := ihr
      refine ⟨.mk v l rl (sizeNode l + sizeNode rl), rr, ?_, ?_, ?_⟩
      · simp [insertNodeAtRoot, h, e, leftRotate_mk, sizeNode]
      · simp [inorder, ← hio]
      · intro hs hn
        simp only [inorder, List.mem_append, List.mem_cons, not_or] at hn
        simp only [inorder, List.Sorted, List.pairwise_append, List.pairwise_cons] at hs
        obtain ⟨_, ⟨_, hsr⟩, hlr⟩ := hs
        obtain ⟨h1, h2⟩ := hb hsr hn.2.2
        have hvlt : v < value := lt_of_le_of_ne (not_lt.mp h) (Ne.symm hn.2.1)
        refine ⟨?_, h2⟩
        intro x hx
        simp only [inorder, List.mem_append, List.mem_cons] at hx
        rcases hx with hx | rfl | hx
        · exact lt_trans (hlr x hx v (by simp)) hvlt
        · exact hvlt
        · exact h1 x hx

/-- A strictly increasing list split around a value that is above the first part and
below the second stays strictly increasing with the value in between. -/
theorem sorted_splice [LinearOrder α] {l r : List α} {v : α}
    (hs : (l ++ r).Sorted (· < ·)) (hl : ∀ x ∈ l, x < v) (hr : ∀ x ∈ r, v < x) :
    (l ++ v :: r).Sorted (· < ·) := by
  simp only [List.Sorted, List.pairwise_append, List.pairwise_cons] at hs ⊢
  obtain ⟨h1, h2, h3⟩ := hs
  refine ⟨h1, ⟨hr, h2⟩, ?_⟩
  intro a ha b hb
  simp only [List.mem_cons] at hb
  rcases hb with rfl | hb
  · exact hl a ha
  · exact h3 a ha b hb

/-- Insertion at the root of a strictly increasing tree that lacks the value: the
result is strictly increasing and holds the value and the old values. -/
theorem insertNodeAtRoot_sorted [LinearOrder α] (here : Node α) (value : α)
    (hs : (inorder here).Sorted (· < ·)) (hn : value ∉ inorder here) :
    ∃ t, insertNodeAtRoot here value = some t ∧ sizeNode t = sizeNode here + 1
      ∧ (inorder t).Sorted (· < ·) ∧ ∀ x, x ∈ inorder t ↔ x = value ∨ x ∈ inorder here := by
  obtain ⟨l, r, e, hio, hb⟩ := insertNodeAtRoot_shape here value
  obtain ⟨h1, h2⟩ := hb hs hn
  refine ⟨_, e, rfl, ?_, ?_⟩
  · simp only [inorder]
    exact sorted_splice (hio ▸ hs) h1 h2
  · intro x
    simp only [inorder, ← hio, List.mem_append, List.mem_cons]
    tauto

/-- The descent of `insertNode`: it never dereferences `nullptr`, the stored size of
the slot grows by one, and a strictly increasing tree that lacks the item stays
strictly increasing and gains exactly the item. -/
theorem insertNode_spec [LinearOrder α] (item : α) (here : Node α) (g : Gen) :
    ∃ t g1, insertNode item here g = some (t, g1) ∧ sizeNode t = sizeNode here + 1
      ∧ ((inorder here).Sorted (· < ·) → item ∉ inorder here →
          (inorder t).Sorted (· < ·) ∧ ∀ x, x ∈ inorder t ↔ x = item ∨ x ∈ inorder here) := by
  induction here generalizing g with
  | null =>
    refine ⟨.mk item .null .null 1, g.next.2, ?_, rfl, fun _ _ => ?_⟩
    · simp [insertNode, insertNodeAtRoot, sizeNode, Nat.mod_one]
    · simp [inorder]
  | mk v l r s ihl ihr =>
    by_cases h0 : g.next.1 % (sizeNode (Node.mk v l r s) + 1) = 0
    · obtain ⟨ll, rr, e, hio, hb⟩ := insertNodeAtRoot_shape (.mk v l r s) item
      refine ⟨.mk item ll rr (sizeNode (Node.mk v l r s) + 1), g.next.2, ?_, rfl,
        fun hs hn => ?_⟩
      · simp [insertNode, h0, e]
      · obtain ⟨t, e2, _, h3, h4⟩ := insertNodeAtRoot_sorted (.mk v l r s) item hs hn
        rw [e] at e2
        cases e2
        exact ⟨h3, h4⟩
    · by_cases h : v < item
      · obtain ⟨t, g1, e, hsz, hb⟩ := ihr g.next.2
        refine ⟨.mk v l t (s + 1), g1, ?_, rfl, fun hs hn => ?_⟩
        · simp [insertNode, h0, h, e]
        · simp only [inorder, List.mem_append, List.mem_cons, not_or] at hn
          simp only [inorder, List.Sorted, List.pairwise_append, List.pairwise_cons] at hs ⊢
          obtain ⟨hsl, ⟨hvr, hsr⟩, hlr⟩ := hs
          obtain ⟨h1, h2⟩ := hb hsr hn.2.2
          refine ⟨⟨hsl, ⟨?_, h1⟩, ?_⟩, ?_⟩
          · intro x hx
            rcases (h2 x).1 hx with rfl | hx
            · exact h
            · exact hvr x hx
          · intro a ha b hb2
            simp only [List.mem_cons] at hb2
            rcases hb2 with rfl | hb2
            · exact hlr a ha b (by simp)
            · rcases (h2 b).1 hb2 with rfl | hb2
              · exact lt_trans (hlr a ha v (by simp)) h
              · exact hlr a ha b (by simp [hb2])
          · intro x
            simp only [List.mem_append, List.mem_cons, h2 x]
            tauto
      · obtain ⟨t, g1, e, hsz, hb⟩ := ihl g.next.2
        refine ⟨.mk v t r (s + 1), g1, ?_, rfl, fun hs hn => ?_⟩
        · simp [insertNode, h0, h, e]
        · simp only [inorder, List.mem_append, List.mem_cons, not_or] at hn
          simp only [inorder, List.Sorted, List.pairwise_append, List.pairwise_cons] at hs ⊢
          obtain ⟨hsl, ⟨hvr, hsr⟩, hlr⟩ := hs
          obtain ⟨h1, h2⟩ := hb hsl hn.1
          have hlt : item < v := lt_of_le_of_ne (not_lt.mp h) hn.2.1
          refine ⟨⟨h1, ⟨hvr, hsr⟩, ?_⟩, ?_⟩
          · intro a ha b hb2
            simp only [List.mem_cons] at hb2
            rcases (h2 a).1 ha with rfl | ha
            · rcases hb2 with rfl | hb2
              · exact hlt
              · exact lt_trans hlt (hvr b hb2)
            · exact hlr a ha b (by simp [hb2])
          · intro x
            simp only [List.mem_append, List.mem_cons, h2 x]
            tauto

/-! ### Sequences of insertions -/

/-- Invariant I1 says the same as: the in-order traversal is strictly increasing. -/
theorem I1_iff_sorted [LinearOrder α] (t : Node α) :
    I1 t ↔ (inorder t).Sorted (· < ·) := by
  induction t with
  | null => simp [I1, inorder]
  | mk v l r s ihl ihr =>
    simp only [I1, inorder, List.Sorted, List.pairwise_append, List.pairwise_cons, ihl, ihr,
      List.mem_cons]
    constructor
    · rintro ⟨h1, h2, h3, h4⟩
      refine ⟨h3, ⟨h2, h4⟩, ?_⟩
      rintro a ha b (rfl | hb)
      · exact h1 a ha
      · exact lt_trans (h1 a ha) (h2 b hb)
    · rintro ⟨h1, ⟨h2, h3⟩, h4⟩
      exact ⟨fun x hx => h4 x hx v (Or.inl rfl), h2, h1, h3⟩

/-- One `insert`: it returns, and the stored size of the root grows by one; on a strictly
increasing tree lacking the item, the tree stays so and gains exactly the item. -/
theorem insert_spec [LinearOrder α] (t : TreeSet α) (item : α) :
    ∃ t1, t.insert item = some t1 ∧ t1.size = t.size + 1
      ∧ ((inorder t.root_).Sorted (· < ·) → item ∉ inorder t.root_ →
          (inorder t1.root_).Sorted (· < ·)
            ∧ ∀ x, x ∈ inorder t1.root_ ↔ x = item ∨ x ∈ inorder t.root_) := by
  obtain ⟨r, g1, e, hsz, hb⟩ := insertNode_spec item t.root_ t.gen_
  exact ⟨⟨r, g1⟩, by simp [TreeSet.insert, e], hsz, hb⟩

/-- A sequence of `insert` calls: it returns, and the stored size of the root grows by the
number of calls; pairwise-distinct items absent from a strictly increasing tree leave
it strictly increasing, holding the old values and the items. -/
theorem insertMany_spec [LinearOrder α] (xs : List α) (t : TreeSet α) :
    ∃ t1, t.insertMany xs = some t1 ∧ t1.size = t.size + xs.length
      ∧ ((inorder t.root_).Sorted (· < ·) → xs.Nodup → (∀ x ∈ xs, x ∉ inorder t.root_) →
          (inorder t1.root_).Sorted (· < ·)
            ∧ ∀ x, x ∈ inorder t1.root_ ↔ x ∈ xs ∨ x ∈ inorder t.root_) := by
  induction xs generalizing t with
  | nil => exact ⟨t, rfl, rfl, fun hs _ _ => ⟨hs, by simp⟩⟩
  | cons a xs ih =>
    obtain ⟨t1, e1, hsz1, hb1⟩ := insert_spec t a
    obtain ⟨t2, e2, hsz2, hb2⟩ := ih t1
    refine ⟨t2, by simp [TreeSet.insertMany, e1, e2], ?_, fun hs hnd hfresh => ?_⟩
    · rw [hsz2, hsz1, List.length_cons]; omega
    · rw [List.nodup_cons] at hnd
      obtain ⟨h1, h2⟩ := hb1 hs (hfresh a (by simp))
      have hfresh2 : ∀ x ∈ xs, x ∉ inorder t1.root_ := by
        intro x hx hx1
        rcases (h2 x).1 hx1 with rfl | hx1
        · exact hnd.1 hx
        · exact hfresh x (by simp [hx]) hx1
      obtain ⟨h3, h4⟩ := hb2 h1 hnd.2 hfresh2
      refine ⟨h3, fun x => ?_⟩
      rw [h4 x, h2 x, List.mem_cons]
      tauto

/-- On a strictly increasing tree the binary search finds exactly the values of the
tree. -/
theorem nodeExists_iff [LinearOrder α] (item : α) (t : Node α)
    (hs : (inorder t).Sorted (· < ·)) : nodeExists item t = true ↔ item ∈ inorder t := by
  induction t with
  | null => simp [nodeExists, inorder]
  | mk v l r s ihl ihr =>
    simp only [inorder, List.Sorted, List.pairwise_append, List.pairwise_cons] at hs
    obtain ⟨hsl, ⟨hvr, hsr⟩, hlr⟩ := hs
    simp only [nodeExists, inorder, List.mem_append, List.mem_cons]
    by_cases h1 : item < v
    · simp only [h1, if_true, ihl hsl]
      constructor
      · exact Or.inl
      · rintro (h | rfl | h)
        · exact h
        · exact absurd h1 (lt_irrefl _)
        · exact absurd (lt_trans h1 (hvr _ h)) (lt_irrefl _)
    · by_cases h2 : v < item
      · simp only [h1, h2, if_true, if_false, ihr hsr]
        constructor
        · exact fun h => Or.inr (Or.inr h)
        · rintro (h | rfl | h)
          · exact absurd (lt_trans (hlr _ h v (by simp)) h2) (lt_irrefl _)
          · exact absurd h2 (lt_irrefl _)
          · exact h
      · simp only [h1, h2, if_false, true_iff]
        exact Or.inr (Or.inl (le_antisymm (not_lt.mp h2) (not_lt.mp h1)))

/-- C1. BST order invariant I1 is kept by insert: after inserting pairwise-distinct
values into a freshly constructed TreeSet, whatever the generator outputs, the
insertions return, every node has only smaller values in its left subtree and only
greater values in its right subtree, and the in-order traversal is strictly
increasing and lists exactly the inserted values. -/
theorem treeset_insert_keeps_order [LinearOrder α] (xs : List α) (g : Gen) (hd : xs.Nodup) :
    ∃ t, (TreeSet.new g).insertMany xs = some t ∧ I1 t.root_
      ∧ (inorder t.root_).Sorted (· < ·) ∧ (inorder t.root_).Perm xs := by
  obtain ⟨t, e, _, hb⟩ := insertMany_spec xs (TreeSet.new g)
  obtain ⟨h1, h2⟩ := hb (by simp [TreeSet.new, inorder]) hd (by simp [TreeSet.new, inorder])
  refine ⟨t, e, (I1_iff_sorted _).2 h1, h1, ?_⟩
  have hnd : (inorder t.root_).Nodup := h1.imp (fun h => ne_of_lt h)
  refine (List.perm_ext_iff_of_nodup hnd hd).2 (fun x => ?_)
  simp [h2 x, TreeSet.new, inorder]

/-- Witness of C1: inserting 5, 1, 9 with the generator that always outputs 1. -/
theorem treeset_insert_keeps_order_witness :
    [5, 1, 9].Nodup ∧ ∃ t, (TreeSet.new (fun _ => 1) : TreeSet Nat).insertMany [5, 1, 9] = some t
      ∧ I1 t.root_ ∧ (inorder t.root_).Sorted (· < ·) ∧ (inorder t.root_).Perm [5, 1, 9] :=
  ⟨by decide, treeset_insert_keeps_order [5, 1, 9] (fun _ => 1) (by decide)⟩

/-- C2. Membership correctness: after inserting pairwise-distinct values into a
freshly constructed TreeSet, whatever the generator outputs, `exists(v)` is true if
and only if `v` is one of the inserted values. -/
theorem treeset_exists_iff_inserted [LinearOrder α] (xs : List α) (g : Gen) (v : α)
    (hd : xs.Nodup) :
    ∃ t, (TreeSet.new g).insertMany xs = some t ∧ (TreeSet.exists t v = true ↔ v ∈ xs) := by
  obtain ⟨t, e, _, hb⟩ := insertMany_spec xs (TreeSet.new g)
  obtain ⟨h1, h2⟩ := hb (by simp [TreeSet.new, inorder]) hd (by simp [TreeSet.new, inorder])
  refine ⟨t, e, ?_⟩
  rw [TreeSet.exists, nodeExists_iff v t.root_ h1, h2 v]
  simp [TreeSet.new, inorder]

/-- Witness of C2: after inserting 5, 1, 9, `exists(2)` is true iff 2 was inserted. -/
theorem treeset_exists_iff_inserted_witness :
    [5, 1, 9].Nodup ∧ ∃ t, (TreeSet.new (fun n => n) : TreeSet Nat).insertMany [5, 1, 9] = some t
      ∧ (TreeSet.exists t 2 = true ↔ 2 ∈ [5, 1, 9]) :=
  ⟨by decide, treeset_exists_iff_inserted [5, 1, 9] (fun n => n) 2 (by decide)⟩

/-- C3. Each insert increases `size()` by exactly 1, whatever the generator outputs
are, and after any sequence of N insertions into a freshly constructed TreeSet
`size() == N`. -/
theorem treeset_insert_size [LinearOrder α] :
    (∀ (t : TreeSet α) (item : α), ∃ t1, t.insert item = some t1 ∧ t1.size = t.size + 1)
      ∧ (∀ (xs : List α) (g : Gen),
          ∃ t, (TreeSet.new g).insertMany xs = some t ∧ t.size = xs.length) := by
  constructor
  · intro t item
    obtain ⟨t1, e, h, _⟩ := insert_spec t item
    exact ⟨t1, e, h⟩
  · intro xs g
    obtain ⟨t, e, h, _⟩ := insertMany_spec xs (TreeSet.new g)
    exact ⟨t, e, by simpa [TreeSet.new, TreeSet.size, sizeNode] using h⟩

/-! ### Stored sizes below the root -/

/-- C4. Size consistency I2 does not survive an insertion at the root of a non-empty
tree: inserting 1 then 2 with a generator that always outputs 0 rotates 2 above 1, and
`fixSizeLeft` stores `0 + 0` in the node 1, which has no children and so should store 1. -/
theorem treeset_size_invariant_broken :
    ∃ t, (TreeSet.new (fun _ => 0) : TreeSet Nat).insertMany [1, 2] = some t
      ∧ t.root_ = .mk 2 (.mk 1 .null .null 0) .null 2 ∧ ¬ I2 t.root_ :=
  ⟨⟨.mk 2 (.mk 1 .null .null 0) .null 2, fun n => 0⟩, rfl, rfl, by simp [I2, sizeNode]⟩

/-- C5. One `rightRotate` at the root of the left chain c(3) -> b(2) -> a(1) gives
the root b with the leaves a and c as children, but the stored size of c is
`0 + 0` and not 1, so I2 fails at c. -/
theorem rightRotate_left_chain (a b c : α) :
    rightRotate (.mk c (.mk b (.mk a .null .null 1) .null 2) .null 3)
        = some (.mk b (.mk a .null .null 1) (.mk c .null .null 0) 3)
      ∧ ¬ I2 (.mk b (.mk a .null .null 1) (.mk c .null .null 0) 3) :=
  ⟨rfl, by simp [I2, sizeNode]⟩

/-- C6. The draw is reduced modulo the stored size plus one, not the number of nodes
plus one. After inserting 1 then 2 (draws 0, 0) the left slot of the root holds the
single node 1 with stored size 0. Inserting 0 with the draws 1, 1 descends into that
slot, where the draw 1 is reduced modulo `0 + 1`, and 0 becomes the root of the
subtree, although 1 modulo (number of nodes + 1) is not 0. -/
theorem draw_modulus_uses_stored_size :
    ∃ t t1, (TreeSet.new (fun n => if n < 2 then 0 else 1) : TreeSet Nat).insertMany [1, 2]
          = some t
      ∧ t.root_ = .mk 2 (.mk 1 .null .null 0) .null 2
      ∧ t.gen_ 0 = 1 ∧ t.gen_ 1 = 1
      ∧ count (.mk 1 .null .null 0 : Node Nat) = 1
      ∧ 1 % (count (.mk 1 .null .null 0 : Node Nat) + 1) ≠ 0
      ∧ t.insert 0 = some t1
      ∧ t1.root_ = .mk 2 (.mk 0 .null (.mk 1 .null .null 0) 1) .null 3 :=
  ⟨⟨.mk 2 (.mk 1 .null .null 0) .null 2, fun n => if n + 1 + 1 < 2 then 0 else 1⟩,
    ⟨.mk 2 (.mk 0 .null (.mk 1 .null .null 0) 1) .null 3,
      fun n => if n + 1 + 1 + 1 + 1 < 2 then 0 else 1⟩,
    rfl, rfl, rfl, rfl, rfl, by decide, rfl, rfl⟩

/-! ### Printing -/

theorem contents_append (sh : α → String) (a b : OStream α) :
    OStream.contents sh (a ++ b) = OStream.contents sh a ++ OStream.contents sh b := by
  induction a with
  | nil => simp [OStream.contents]
  | cons c cs ih =>
    rw [List.cons_append]
    simp only [OStream.contents]
    rw [ih, String.append_assoc]

theorem values_append (a b : OStream α) :
    OStream.values (a ++ b) = OStream.values a ++ OStream.values b := by
  induction a with
  | nil => simp [OStream.values]
  | cons c cs ih => cases c <;> simp [OStream.values, ih]

/-- The characters `nodePrint` adds to the stream are those of the grammar. -/
theorem nodePrint_contents (sh : α → String) (t : Node α) (out : OStream α) :
    OStream.contents sh (nodePrint out t) = OStream.contents sh out ++ render sh t := by
  induction t generalizing out with
  | null => simp [nodePrint, render, contents_append, OStream.contents, Chunk.str]
  | mk v l r s ihl ihr =>
    simp only [nodePrint, render, contents_append, OStream.contents, Chunk.str, ihl, ihr,
      String.append_assoc, String.append_empty]

/-- The values `nodePrint` adds to the stream are the in-order traversal. -/
theorem nodePrint_values (t : Node α) (out : OStream α) :
    OStream.values (nodePrint out t) = OStream.values out ++ inorder t := by
  induction t generalizing out with
  | null => simp [nodePrint, inorder, values_append, OStream.values]
  | mk v l r s ihl ihr =>
    simp [nodePrint, inorder, values_append, OStream.values, ihl, ihr]

/-- C7. Empty-tree edge cases: on a freshly constructed TreeSet `size() == 0`,
`height() == -1`, `exists(v) == false` for every `v`, and `print` writes exactly
the single character `-`. -/
theorem treeset_empty_edge_cases [LinearOrder α] (g : Gen) (v : α) (sh : α → String) :
    (TreeSet.new g : TreeSet α).size = 0
      ∧ (TreeSet.new g : TreeSet α).height = -1
      ∧ TreeSet.exists (TreeSet.new g : TreeSet α) v = false
      ∧ (TreeSet.new g : TreeSet α).print [] = [.text "-"]
      ∧ OStream.contents sh ((TreeSet.new g : TreeSet α).print []) = "-" :=
  ⟨rfl, rfl, rfl, rfl,
    by simp [TreeSet.print, TreeSet.new, nodePrint, OStream.contents, Chunk.str]⟩

/-- C8. Print grammar: `print` appends to the stream exactly `render(root)`, where
`render(absent)` is `-` and `render(node)` is `(` render(left) `, ` value `, `
render(right) `)`; the values are written in in-order sequence; and a set holding the
single value `v` prints `(-, v, -)`. -/
theorem treeset_print_grammar [LinearOrder α] (sh : α → String) :
    (∀ (t : TreeSet α) (out : OStream α),
        OStream.contents sh (t.print out) = OStream.contents sh out ++ render sh t.root_
          ∧ OStream.values (t.print out) = OStream.values out ++ inorder t.root_)
      ∧ render sh (Node.null : Node α) = "-"
      ∧ (∀ (v : α) (l r : Node α) (s : Nat),
          render sh (.mk v l r s)
            = "(" ++ render sh l ++ ", " ++ sh v ++ ", " ++ render sh r ++ ")")
      ∧ (∀ (g : Gen) (v : α), ∃ t, (TreeSet.new g).insert v = some t
          ∧ OStream.contents sh (t.print []) = "(-, " ++ sh v ++ ", -)") := by
  refine ⟨fun t out => ⟨nodePrint_contents sh t.root_ out, nodePrint_values t.root_ out⟩,
    rfl, fun _ _ _ _ => rfl, fun g v => ?_⟩
  refine ⟨⟨.mk v .null .null 1, g.next.2⟩, ?_, ?_⟩
  · simp [TreeSet.insert, TreeSet.new, insertNode, insertNodeAtRoot, sizeNode, Nat.mod_one]
  · simp only [TreeSet.print, nodePrint_contents, OStream.contents, render,
      String.empty_append, String.append_assoc]
    rfl

end RandomizedBST

namespace HashTable

variable {α : Type}

/-! ### The chained hash set -/

/-- An entry of a list splits the list around it, and `set` replaces it in place. -/
theorem split_at_index {β : Type} (l : List β) (i : Nat) (c : β) (h : l[i]? = some c) :
    ∃ pre post, l = pre ++ c :: post ∧ pre.length = i
      ∧ ∀ a, l.set i a = pre ++ a :: post := by
  induction l generalizing i with
  | nil => simp at h
  | cons b l ih =>
    cases i with
    | zero =>
      simp only [List.getElem?_cons_zero, Option.some.injEq] at h
      exact ⟨[], l, by simp [h], rfl, fun a => by simp⟩
    | succ i =>
      simp only [List.getElem?_cons_succ] at h
      obtain ⟨pre, post, e, hl, hs⟩ := ih i h
      exact ⟨b :: pre, post, by simp [e], by simp [hl], fun a => by simp [hs a]⟩

theorem mem_items (s : HashSet α) (x : α) :
    x ∈ s.items ↔ ∃ (i : Nat) (chain : List α), s.table_[i]? = some (some chain) ∧ x ∈ chain := by
  simp only [HashSet.items, List.mem_flatten, List.mem_map]
  constructor
  · rintro ⟨l, ⟨c, hc, rfl⟩, hx⟩
    cases c with
    | none => simp at hx
    | some chain =>
      obtain ⟨i, hi⟩ := List.getElem?_of_mem hc
      exact ⟨i, chain, hi, hx⟩
  · rintro ⟨i, chain, hi, hx⟩
    exact ⟨chain, ⟨some chain, List.getElem?_mem hi, rfl⟩, hx⟩

/-- The part of `insert` before the `overloaded()` test, on a well-formed table: the
item is pushed on its chain, `size_` grows by one and the table stays well-formed. -/
theorem insert_push [DecidableEq α] (myhash : α → Nat) (depth : Nat) (s : HashSet α)
    (item : α) (hwf : s.WF myhash) :
    ∃ s1, HashSet.insert myhash (depth + 1) s item
          = (if s1.overloaded then resizeWith (HashSet.insert myhash depth) s1 else some s1)
      ∧ s1.WF myhash ∧ s1.size_ = s.size_ + 1 ∧ s1.numBuckets_ = s.numBuckets_
      ∧ ∀ x, x ∈ s1.items ↔ x = item ∨ x ∈ s.items := by
  obtain ⟨hpos, hlen, hbucket, hsize⟩ := hwf
  have hb : myhash item % s.numBuckets_ < s.table_.length := by
    rw [hlen]; exact Nat.mod_lt _ hpos
  obtain ⟨chain, hchain⟩ : ∃ chain, s.table_[myhash item % s.numBuckets_]? = some chain :=
    ⟨_, List.getElem?_eq_getElem hb⟩
  obtain ⟨pre, post, e, hl, hs⟩ := split_at_index _ _ _ hchain
  refine ⟨{ s with
      size_ := s.size_ + 1,
      collisions_ := if chain.isNone then s.collisions_ + 1 - 1 else s.collisions_ + 1,
      maximalChainSize_ :=
        if (item :: chain.getD []).length > s.maximalChainSize_
        then (item :: chain.getD []).length else s.maximalChainSize_,
      table_ := s.table_.set (myhash item % s.numBuckets_) (some (item :: chain.getD [])) },
    ?_, ?_, ?_, ?_, ?_⟩
  · simp only [HashSet.insert, HashSet.buckets, hchain, Nat.pos_iff_ne_zero.mp hpos, if_false]
  · refine ⟨hpos, by simpa using hlen, ?_, ?_⟩
    · intro i c hi x hx
      simp only [List.getElem?_set, hb, if_true] at hi
      by_cases hib : myhash item % s.numBuckets_ = i
      · simp only [hib, if_true, Option.some.injEq] at hi
        subst hi
        simp only [List.mem_cons] at hx
        rcases hx with rfl | hx
        · exact hib
        · cases chain with
          | none => simp at hx
          | some c0 => exact hbucket i c0 (hib ▸ hchain) x hx
      · simp only [hib, if_false] at hi
        exact hbucket i c hi x hx
    · simp only [HashSet.chainLengths, hs] at hsize ⊢
      rw [e] at hsize
      simp only [List.map_append, List.map_cons, List.sum_append, List.sum_cons,
        List.length_cons, Option.getD_some] at hsize ⊢
      omega
  · rfl
  · rfl
  · intro x
    simp only [HashSet.items, hs]
    rw [e]
    simp only [List.map_append, List.map_cons, List.flatten_append, List.flatten_cons,
      List.mem_append, List.mem_cons, Option.getD_some]
    tauto

/-- An `insert` that leaves the table below the load factor does not resize. -/
theorem insert_below_load [DecidableEq α] (myhash : α → Nat) (depth : Nat)
    (s : HashSet α) (item : α) (hwf : s.WF myhash)
    (hload : s.size_ + 1 < LOAD_FACTOR * s.numBuckets_) :
    ∃ s1, HashSet.insert myhash (depth + 1) s item = some s1
      ∧ s1.WF myhash ∧ s1.size_ = s.size_ + 1 ∧ s1.numBuckets_ = s.numBuckets_
      ∧ ∀ x, x ∈ s1.items ↔ x = item ∨ x ∈ s.items := by
  obtain ⟨s1, e, h1, h2, h3, h4⟩ := insert_push myhash depth s item hwf
  refine ⟨s1, ?_, h1, h2, h3, h4⟩
  have hno : s1.overloaded = false := by
    simp only [HashSet.overloaded, decide_eq_false_iff_not, not_le, h2, h3]
    exact hload
  rw [e, hno]
  rfl

/-- A whole chain inserted into a table that stays below the load factor. -/
theorem insertWholeList_below_load [DecidableEq α] (myhash : α → Nat) (depth : Nat)
    (list : List α) (s : HashSet α) (hwf : s.WF myhash)
    (hload : s.size_ + list.length < LOAD_FACTOR * s.numBuckets_) :
    ∃ s1, insertWholeListWith (HashSet.insert myhash (depth + 1)) s list = some s1
      ∧ s1.WF myhash ∧ s1.size_ = s.size_ + list.length ∧ s1.numBuckets_ = s.numBuckets_
      ∧ ∀ x, x ∈ s1.items ↔ x ∈ list ∨ x ∈ s.items := by
  induction list generalizing s with
  | nil => exact ⟨s, rfl, hwf, rfl, rfl, fun x => by simp⟩
  | cons a rest ih =>
    simp only [List.length_cons] at hload
    obtain ⟨s1, e1, w1, z1, b1, m1⟩ :=
      insert_below_load myhash depth s a hwf (by omega)
    obtain ⟨s2, e2, w2, z2, b2, m2⟩ := ih s1 w1 (by rw [z1, b1]; omega)
    refine ⟨s2, by simp [insertWholeListWith, e1, e2], w2, ?_, by rw [b2, b1], fun x => ?_⟩
    · rw [z2, z1, List.length_cons]; omega
    · rw [m2 x, m1 x, List.mem_cons]; tauto

/-- The loop of `resize` over the rest of the old table, into a table that stays
below the load factor. -/
theorem resizeLoop_below_load [DecidableEq α] (myhash : α → Nat) (depth : Nat)
    (rest pre : List (Option (List α))) (s : HashSet α) (hwf : s.WF myhash)
    (hload : s.size_ + (rest.map (fun c => (c.getD []).length)).sum
      < LOAD_FACTOR * s.numBuckets_) :
    ∃ s1, resizeLoopWith (HashSet.insert myhash (depth + 1)) (pre ++ rest) rest.length
          pre.length s = some s1
      ∧ s1.WF myhash
      ∧ s1.size_ = s.size_ + (rest.map (fun c => (c.getD []).length)).sum
      ∧ s1.numBuckets_ = s.numBuckets_
      ∧ ∀ x, x ∈ s1.items ↔ x ∈ (rest.map (fun c => c.getD [])).flatten ∨ x ∈ s.items := by
  induction rest generalizing pre s with
  | nil => exact ⟨s, rfl, hwf, by simp, rfl, fun x => by simp⟩
  | cons c rest ih =>
    have hget : (pre ++ c :: rest)[pre.length]? = some c := by
      rw [List.getElem?_append_right (Nat.le_refl _)]; simp
    have hpre : pre ++ c :: rest = (pre ++ [c]) ++ rest := by simp
    have hlen : pre.length + 1 = (pre ++ [c]).length := by simp
    simp only [List.map_cons, List.sum_cons] at hload
    cases c with
    | none =>
      obtain ⟨s1, e1, w1, z1, b1, m1⟩ := ih (pre ++ [none]) s hwf (by simpa using hload)
      refine ⟨s1, ?_, w1, ?_, b1, fun x => ?_⟩
      · simp only [List.length_cons, resizeLoopWith, hget]
        rw [hpre, hlen]; exact e1
      · simp [z1]
      · simp [m1 x]
    | some chain =>
      simp only [Option.getD_some] at hload
      obtain ⟨s1, e1, w1, z1, b1, m1⟩ :=
        insertWholeList_below_load myhash depth chain s hwf (by omega)
      obtain ⟨s2, e2, w2, z2, b2, m2⟩ :=
        ih (pre ++ [some chain]) s1 w1 (by rw [z1, b1]; omega)
      refine ⟨s2, ?_, w2, ?_, by rw [b2, b1], fun x => ?_⟩
      · simp only [List.length_cons, resizeLoopWith, hget, e1]
        rw [hpre, hlen]; exact e2
      · simp only [List.map_cons, List.sum_cons, Option.getD_some, z2, z1]; omega
      · simp only [List.map_cons, List.flatten_cons, Option.getD_some, List.mem_append, m2 x,
          m1 x]
        tauto

/-- A `resize` of a well-formed table holding fewer than `2 * LOAD_FACTOR * numBuckets_`
items: it returns, with one level of nesting to spare, a well-formed table of twice
as many buckets holding the same items, and `size_` is again their number. -/
theorem resize_spec [DecidableEq α] (myhash : α → Nat) (depth : Nat) (s : HashSet α)
    (hwf : s.WF myhash) (hload : s.size_ < 2 * (LOAD_FACTOR * s.numBuckets_)) :
    ∃ s1, resizeWith (HashSet.insert myhash (depth + 1)) s = some s1
      ∧ s1.WF myhash ∧ s1.size_ = s.size_ ∧ s1.numBuckets_ = 2 * s.numBuckets_
      ∧ ∀ x, x ∈ s1.items ↔ x ∈ s.items := by
  obtain ⟨hpos, hlen, hbucket, hsize⟩ := hwf
  have hsum : ∀ n : Nat,
      ((List.replicate n (none : Option (List α))).map (fun c => (c.getD []).length)).sum = 0 := by
    intro n; induction n with
    | zero => rfl
    | succ n ih => simp [List.replicate_succ, ih]
  have hnil : ∀ (n : Nat) (x : α),
      x ∉ ((List.replicate n (none : Option (List α))).map (fun c => c.getD [])).flatten := by
    intro n x; induction n with
    | zero => simp
    | succ n ih => simp [List.replicate_succ, ih]
  have hwf0 : HashSet.WF myhash
      { s with maximalChainSize_ := 0, collisions_ := 0, size_ := 0,
               numBuckets_ := 2 * s.numBuckets_,
               table_ := List.replicate (2 * s.numBuckets_) none } := by
    refine ⟨by show 0 < 2 * s.numBuckets_; omega, by simp, ?_, ?_⟩
    · intro i c hi
      simp only [List.getElem?_replicate] at hi
      split at hi <;> simp at hi
    · simp only [HashSet.chainLengths, hsum]
  obtain ⟨s1, e1, w1, z1, b1, m1⟩ :=
    resizeLoop_below_load myhash depth s.table_ [] _ hwf0 (by
      show 0 + (s.table_.map (fun c => (c.getD []).length)).sum
        < LOAD_FACTOR * (2 * s.numBuckets_)
      have : (s.table_.map (fun c => (c.getD []).length)).sum = s.size_ := hsize.symm
      rw [this]; simp only [LOAD_FACTOR] at hload ⊢; omega)
  simp only [List.nil_append, List.length_nil, hlen] at e1
  refine ⟨{ s1 with reallocations_ := s1.reallocations_ + 1 }, ?_, ?_, ?_, b1, fun x => ?_⟩
  · simp only [resizeWith, e1]
  · exact w1
  · show s1.size_ = s.size_
    rw [z1, hsize]; simp [HashSet.chainLengths]
  · show x ∈ s1.items ↔ x ∈ s.items
    rw [m1 x]
    simp only [HashSet.items, hnil, or_false]

/-- One top-level `insert` into a well-formed table below the load factor: with two
levels of nesting it returns a well-formed table below the load factor that holds the
old items and the new one, and `size_` has grown by one. -/
theorem table_insert_spec [DecidableEq α] (myhash : α → Nat) (depth : Nat) (s : HashSet α)
    (item : α) (hwf : s.WF myhash) (hload : s.size_ < LOAD_FACTOR * s.numBuckets_) :
    ∃ s1, HashSet.insert myhash (depth + 2) s item = some s1
      ∧ s1.WF myhash ∧ s1.size_ < LOAD_FACTOR * s1.numBuckets_
      ∧ s1.size_ = s.size_ + 1
      ∧ ∀ x, x ∈ s1.items ↔ x = item ∨ x ∈ s.items := by
  obtain ⟨s1, e, h1, h2, h3, h4⟩ := insert_push myhash (depth + 1) s item hwf
  by_cases hov : s1.overloaded = true
  · have hge : LOAD_FACTOR * s1.numBuckets_ ≤ s1.size_ := by
      simpa [HashSet.overloaded] using hov
    obtain ⟨s2, e2, w2, z2, b2, m2⟩ := resize_spec myhash depth s1 h1 (by rw [h2, h3]; omega)
    refine ⟨s2, ?_, w2, ?_, by rw [z2, h2], fun x => by rw [m2 x, h4 x]⟩
    · rw [e, if_pos hov]; exact e2
    · rw [z2, b2, h2, h3]
      have : 0 < s.numBuckets_ := hwf.1
      simp only [LOAD_FACTOR] at *
      omega
  · refine ⟨s1, ?_, h1, ?_, h2, h4⟩
    · rw [e, if_neg hov]
    · simpa [HashSet.overloaded] using hov

/-- A sequence of top-level `insert` calls on a well-formed table below the load
factor. -/
theorem table_insertMany_spec [DecidableEq α] (myhash : α → Nat) (depth : Nat) (xs : List α)
    (s : HashSet α) (hwf : s.WF myhash) (hload : s.size_ < LOAD_FACTOR * s.numBuckets_) :
    ∃ s1, HashSet.insertMany myhash (depth + 2) s xs = some s1
      ∧ s1.WF myhash ∧ s1.size_ = s.size_ + xs.length
      ∧ ∀ x, x ∈ s1.items ↔ x ∈ xs ∨ x ∈ s.items := by
  induction xs generalizing s with
  | nil => exact ⟨s, rfl, hwf, rfl, fun x => by simp⟩
  | cons a xs ih =>
    obtain ⟨s1, e1, w1, l1, z1, m1⟩ := table_insert_spec myhash depth s a hwf hload
    obtain ⟨s2, e2, w2, z2, m2⟩ := ih s1 w1 l1
    refine ⟨s2, by simp [HashSet.insertMany, e1, e2], w2, ?_, fun x => ?_⟩
    · rw [z2, z1, List.length_cons]; omega
    · rw [m2 x, m1 x, List.mem_cons]; tauto

/-- The default-constructed table is well-formed and empty. -/
theorem new_wf (myhash : α → Nat) :
    (HashSet.new : HashSet α).WF myhash ∧ (HashSet.new : HashSet α).items = [] := by
  refine ⟨⟨Nat.one_pos, rfl, ?_, rfl⟩, rfl⟩
  intro i c hi
  cases i <;> simp [HashSet.new] at hi

/-- On a well-formed table `exists` returns, and finds exactly the items of the
table. -/
theorem exists_spec [DecidableEq α] (myhash : α → Nat) (s : HashSet α) (x : α)
    (hwf : s.WF myhash) : HashSet.exists myhash s x = some (decide (x ∈ s.items)) := by
  obtain ⟨hpos, hlen, hbucket, hsize⟩ := hwf
  have hb : myhash x % s.numBuckets_ < s.table_.length := by
    rw [hlen]; exact Nat.mod_lt _ hpos
  obtain ⟨chain, hchain⟩ : ∃ chain, s.table_[myhash x % s.numBuckets_]? = some chain :=
    ⟨_, List.getElem?_eq_getElem hb⟩
  simp only [HashSet.exists, HashSet.buckets, Nat.pos_iff_ne_zero.mp hpos, if_false, hchain]
  cases chain with
  | none =>
    have : x ∉ s.items := by
      rw [mem_items]
      rintro ⟨i, c, hi, hx⟩
      have := hbucket i c hi x hx
      rw [this, hi] at hchain
      simp at hchain
    simp [this]
  | some c0 =>
    have : x ∈ s.items ↔ x ∈ c0 := by
      rw [mem_items]
      constructor
      · rintro ⟨i, c, hi, hx⟩
        have := hbucket i c hi x hx
        rw [this, hi] at hchain
        simp only [Option.some.injEq] at hchain
        exact hchain ▸ hx
      · exact fun hx => ⟨_, c0, hchain, hx⟩
    simp only [Option.some.injEq]
    by_cases hx : x ∈ c0
    · simp only [this, hx, decide_True, List.any_eq_true, decide_eq_true_eq]
      exact ⟨x, hx, rfl⟩
    · simp only [this, hx, decide_False, List.any_eq_false, decide_eq_true_eq]
      rintro y hy rfl
      exact hx hy

/-- C9. HashSet membership survives growth: for every hash function and every
sequence of items inserted into a default-constructed HashSet, however many resizes
it triggers, the insertions return (two levels of nested `insert` calls are enough)
and `exists(x)` returns true if and only if `x` is one of the inserted items. -/
theorem hashset_exists_iff_inserted [DecidableEq α] (myhash : α → Nat) (depth : Nat)
    (xs : List α) (x : α) :
    ∃ s, HashSet.insertMany myhash (depth + 2) HashSet.new xs = some s
      ∧ HashSet.exists myhash s x = some (decide (x ∈ xs)) := by
  obtain ⟨w0, i0⟩ := new_wf (α := α) myhash
  obtain ⟨s, e, w, _, m⟩ := table_insertMany_spec myhash depth xs HashSet.new w0
    (by show 0 < LOAD_FACTOR * 1; decide)
  refine ⟨s, e, ?_⟩
  rw [exists_spec myhash s x w]
  congr 1
  simp [m x, i0]

/-- C10. HashSet `size()` is the number of items in the table: after any sequence of
N `insert` calls on a default-constructed HashSet, however many resizes reset the
counter and re-insert the items, `size() == N`, and `size()` is the sum of the
lengths of all bucket chains. -/
theorem hashset_size_counts_items [DecidableEq α] (myhash : α → Nat) (depth : Nat)
    (xs : List α) :
    ∃ s, HashSet.insertMany myhash (depth + 2) HashSet.new xs = some s
      ∧ s.size = xs.length ∧ s.size = s.chainLengths := by
  obtain ⟨w0, _⟩ := new_wf (α := α) myhash
  obtain ⟨s, e, w, z, _⟩ := table_insertMany_spec myhash depth xs HashSet.new w0
    (by show 0 < LOAD_FACTOR * 1; decide)
  exact ⟨s, e, by simpa [HashSet.size, HashSet.new] using z, w.2.2.2⟩

end HashTable

namespace RandomizedBST

variable {α : Type}

/-! ### Insertion at the root, rotations, and the role of the generator -/

/-- C15. Insert-at-root forces the new value to the root: for a subtree satisfying the
BST order invariant and a value not in it, `insertNodeAtRoot` returns a node holding
the value, whose left subtree holds exactly the old values below it and whose right
subtree holds exactly the old values above it, and the result satisfies the BST order
invariant again. -/
theorem insertNodeAtRoot_forces_root [LinearOrder α] (t : Node α) (v : α)
    (hbst : I1 t) (hnew : v ∉ inorder t) :
    ∃ l r s, insertNodeAtRoot t v = some (.mk v l r s)
      ∧ (∀ x, x ∈ inorder l ↔ x ∈ inorder t ∧ x < v)
      ∧ (∀ x, x ∈ inorder r ↔ x ∈ inorder t ∧ v < x)
      ∧ I1 (.mk v l r s) := by
  have hs := (I1_iff_sorted t).1 hbst
  obtain ⟨l, r, e, hio, hb⟩ := insertNodeAtRoot_shape t v
  obtain ⟨h1, h2⟩ := hb hs hnew
  refine ⟨l, r, _, e, fun x => ?_, fun x => ?_, ?_⟩
  · constructor
    · intro hx
      exact ⟨by rw [← hio]; exact List.mem_append_left _ hx, h1 x hx⟩
    · rintro ⟨hx, hlt⟩
      rw [← hio, List.mem_append] at hx
      rcases hx with hx | hx
      · exact hx
      · exact absurd (lt_trans hlt (h2 x hx)) (lt_irrefl _)
  · constructor
    · intro hx
      exact ⟨by rw [← hio]; exact List.mem_append_right _ hx, h2 x hx⟩
    · rintro ⟨hx, hlt⟩
      rw [← hio, List.mem_append] at hx
      rcases hx with hx | hx
      · exact absurd (lt_trans hlt (h1 x hx)) (lt_irrefl _)
      · exact hx
  · rw [I1_iff_sorted]
    simp only [inorder]
    exact sorted_splice (hio ▸ hs) h1 h2

/-- An instance of C15: 4 inserted at the root of the tree 5 with children 1 and 9. -/
theorem insertNodeAtRoot_forces_root_witness :
    I1 (.mk 5 (.mk 1 .null .null 1) (.mk 9 .null .null 1) 3 : Node Nat)
      ∧ 4 ∉ inorder (.mk 5 (.mk 1 .null .null 1) (.mk 9 .null .null 1) 3 : Node Nat)
      ∧ ∃ l r s,
          insertNodeAtRoot (.mk 5 (.mk 1 .null .null 1) (.mk 9 .null .null 1) 3 : Node Nat) 4
            = some (.mk 4 l r s)
          ∧ (∀ x, x ∈ inorder l ↔
              x ∈ inorder (.mk 5 (.mk 1 .null .null 1) (.mk 9 .null .null 1) 3 : Node Nat)
                ∧ x < 4)
          ∧ (∀ x, x ∈ inorder r ↔
              x ∈ inorder (.mk 5 (.mk 1 .null .null 1) (.mk 9 .null .null 1) 3 : Node Nat)
                ∧ 4 < x)
          ∧ I1 (.mk 4 l r s) :=
  ⟨by simp [I1, inorder], by simp [inorder],
    insertNodeAtRoot_forces_root _ 4 (by simp [I1, inorder]) (by simp [inorder])⟩

/-- C16. Rotations preserve the in-order value sequence: `rightRotate` of a tree whose
root has a left child returns a tree with the same in-order sequence whose root is the
old left child, and `leftRotate` applied to it returns a tree of the original shape;
symmetrically `leftRotate` of a tree whose root has a right child returns a tree with
the same in-order sequence whose root is the old right child, and `rightRotate`
applied to it returns a tree of the original shape. -/
theorem rotations_preserve_inorder (v w : α) (a b c : Node α) (s1 s2 : Nat) :
    (∃ t, rightRotate (.mk v (.mk w a b s2) c s1) = some t
        ∧ inorder t = inorder (.mk v (.mk w a b s2) c s1)
        ∧ rootValue t = some w
        ∧ ∃ t2, leftRotate t = some t2 ∧ shape t2 = shape (.mk v (.mk w a b s2) c s1))
      ∧ (∃ t, leftRotate (.mk v a (.mk w b c s2) s1) = some t
        ∧ inorder t = inorder (.mk v a (.mk w b c s2) s1)
        ∧ rootValue t = some w
        ∧ ∃ t2, rightRotate t = some t2 ∧ shape t2 = shape (.mk v a (.mk w b c s2) s1)) := by
  refine ⟨⟨_, rfl, ?_, rfl, _, rfl, rfl⟩, ⟨_, rfl, ?_, rfl, _, rfl, rfl⟩⟩
  · simp [inorder]
  · simp [inorder]

/-- C17. Insert never touches an absent node: the modulus `sizeNode(here)+1` is never
0 and is 1 on an empty slot, where every draw takes the insert-at-root branch; for
every tree, value and generator `insertNode` and `insertNodeAtRoot` return without
dereferencing `nullptr`; and in `insertNodeAtRoot` the child handed to the rotation as
pivot has just received the value at its root, so it is non-empty and the rotation
returns (stated for the node `v` with children `l`, `r` and stored size `s`). -/
theorem insert_never_dereferences_null [LinearOrder α] (item v : α) (here l r : Node α)
    (s : Nat) (g : Gen) :
    sizeNode here + 1 ≠ 0
      ∧ g.next.1 % (sizeNode (Node.null : Node α) + 1) = 0
      ∧ insertNode item .null g = some (.mk item .null .null 1, g.next.2)
      ∧ (∃ t g1, insertNode item here g = some (t, g1) ∧ t ≠ .null)
      ∧ (∃ t, insertNodeAtRoot here item = some t ∧ t ≠ .null)
      ∧ (∃ pv pl pr ps t,
          (if item < v then insertNodeAtRoot l item else insertNodeAtRoot r item)
              = some (.mk pv pl pr ps)
            ∧ (if item < v then rightRotate (.mk v (.mk pv pl pr ps) r (s + 1))
                else leftRotate (.mk v l (.mk pv pl pr ps) (s + 1))) = some t
            ∧ insertNodeAtRoot (.mk v l r s) item = some t) := by
  refine ⟨Nat.succ_ne_zero _, by simp [sizeNode, Nat.mod_one], ?_, ?_, ?_, ?_⟩
  · simp [insertNode, insertNodeAtRoot, sizeNode, Nat.mod_one]
  · obtain ⟨t, g1, e, hsz, _⟩ := insertNode_spec item here g
    refine ⟨t, g1, e, ?_⟩
    rintro rfl
    simp [sizeNode] at hsz
  · obtain ⟨l, r, e, _⟩ := insertNodeAtRoot_shape here item
    exact ⟨_, e, by simp⟩
  · by_cases hlt : item < v
    · obtain ⟨pl, pr, e, _⟩ := insertNodeAtRoot_shape l item
      refine ⟨item, pl, pr, sizeNode l + 1,
        .mk item pl (.mk v pr r (sizeNode r + sizeNode pr)) (s + 1), ?_, ?_, ?_⟩
      · simpa [hlt] using e
      · simp [hlt, rightRotate_mk]
      · simp [insertNodeAtRoot, hlt, e, rightRotate_mk]
    · obtain ⟨pl, pr, e, _⟩ := insertNodeAtRoot_shape r item
      refine ⟨item, pl, pr, sizeNode r + 1,
        .mk item (.mk v l pl (sizeNode l + sizeNode pl)) pr (s + 1), ?_, ?_, ?_⟩
      · simpa [hlt] using e
      · simp [hlt, leftRotate_mk]
      · simp [insertNodeAtRoot, hlt, e, leftRotate_mk]

/-- C18. Randomness affects only the shape, never the content: inserting
pairwise-distinct values into a freshly constructed TreeSet under any two generator
streams gives two trees with the same in-order sequence, the same `size()` and the
same `exists(v)` answer for every `v`. -/
theorem generator_affects_only_shape [LinearOrder α] (xs : List α) (g1 g2 : Gen)
    (hd : xs.Nodup) :
    ∃ t1 t2, (TreeSet.new g1).insertMany xs = some t1
      ∧ (TreeSet.new g2).insertMany xs = some t2
      ∧ inorder t1.root_ = inorder t2.root_
      ∧ t1.size = t2.size
      ∧ ∀ v, TreeSet.exists t1 v = TreeSet.exists t2 v := by
  obtain ⟨t1, e1, z1, hb1⟩ := insertMany_spec xs (TreeSet.new g1)
  obtain ⟨t2, e2, z2, hb2⟩ := insertMany_spec xs (TreeSet.new g2)
  obtain ⟨s1, m1⟩ := hb1 (by simp [TreeSet.new, inorder]) hd (by simp [TreeSet.new, inorder])
  obtain ⟨s2, m2⟩ := hb2 (by simp [TreeSet.new, inorder]) hd (by simp [TreeSet.new, inorder])
  have hperm : (inorder t1.root_).Perm (inorder t2.root_) := by
    refine (List.perm_ext_iff_of_nodup (s1.imp (fun h => ne_of_lt h))
      (s2.imp (fun h => ne_of_lt h))).2 (fun x => ?_)
    rw [m1 x, m2 x]
    simp [TreeSet.new, inorder]
  refine ⟨t1, t2, e1, e2, List.eq_of_perm_of_sorted hperm s1 s2, ?_, fun v => ?_⟩
  · rw [z1, z2]; rfl
  · have h1 := nodeExists_iff v t1.root_ s1
    have h2 := nodeExists_iff v t2.root_ s2
    rw [m1 v] at h1
    rw [m2 v] at h2
    simp only [TreeSet.exists]
    rw [Bool.eq_iff_iff, h1, h2]
    simp [TreeSet.new, inorder]

/-- An instance of C18: 5, 1, 9 inserted under the generator that always outputs 0
and under the generator that outputs 0, 1, 2, ... -/
theorem generator_affects_only_shape_witness :
    [5, 1, 9].Nodup ∧ ∃ t1 t2,
      (TreeSet.new (fun _ => 0) : TreeSet Nat).insertMany [5, 1, 9] = some t1
      ∧ (TreeSet.new (fun n => n) : TreeSet Nat).insertMany [5, 1, 9] = some t2
      ∧ inorder t1.root_ = inorder t2.root_
      ∧ t1.size = t2.size
      ∧ ∀ v, TreeSet.exists t1 v = TreeSet.exists t2 v :=
  ⟨by decide, generator_affects_only_shape [5, 1, 9] (fun _ => 0) (fun n => n) (by decide)⟩

end RandomizedBST

namespace LinkedList

/-! ### The singly linked list -/

/-- C11. After `push_back(1)` and `insert_after(begin(), 2)` the list iterates as
1, 2 with `size() == 2`, but `back_` still points to the element 1, so `push_back(3)`
overwrites its `next_`: the list then iterates as 1, 3 (not 1, 2, 3) while `size()`
is 3. -/
theorem push_back_after_insert_after_drops_element :
    ∃ l0 l1 l2, IntList.new.push_back 1 = some l0
      ∧ l0.insert_after l0.begin 2 = some l1
      ∧ l1.elements 5 = some [1, 2] ∧ l1.size = 2
      ∧ l1.push_back 3 = some l2
      ∧ l2.elements 5 = some [1, 3] ∧ l2.size = 3 :=
  ⟨_, _, _, rfl, rfl, rfl, rfl, rfl, rfl, rfl⟩

/-- C12. After `push_front(1)`, `insert_after(begin(), 2)` and `push_back(3)`,
`size()` is 3 while forward iteration visits the two elements 1, 3; after two
`pop_front()` calls more, iteration visits no element while `size()` is 1 and
`empty()` is false. -/
theorem size_differs_from_iteration_count :
    ∃ l1 l2 l3 l4 v1 v2,
      (IntList.new.push_front 1).insert_after (IntList.new.push_front 1).begin 2 = some l1
      ∧ l1.push_back 3 = some l2
      ∧ l2.size = 3 ∧ l2.elements 5 = some [1, 3]
      ∧ l2.pop_front = some (v1, l3) ∧ l3.pop_front = some (v2, l4)
      ∧ l4.elements 5 = some [] ∧ l4.size = 1 ∧ l4.empty = false :=
  ⟨_, _, _, _, _, _, rfl, rfl, rfl, rfl, rfl, rfl, rfl, rfl, rfl⟩

/-- Iteration depends on the store only through what reading returns. -/
theorem forwardFrom_congr (l1 l2 : IntList)
    (hread : ∀ p, l1.heap.read p = l2.heap.read p) (fuel : Nat) (it : Iterator) :
    l1.forwardFrom fuel it = l2.forwardFrom fuel it := by
  induction fuel generalizing it with
  | zero => rfl
  | succ n ih =>
    simp only [IntList.forwardFrom, IntList.end_, Iterator.deref, Iterator.incr, hread, ih]

/-- Reading the store after `new` and `delete` of the element `new` returned gives
what it gave before. -/
theorem read_alloc_free (h : Heap) (e : Element) (p : Ptr) :
    Heap.read (Heap.free (h.alloc e).1 h.length) p = h.read p := by
  cases p with
  | none => rfl
  | some a =>
    simp only [Heap.read, Heap.free, Heap.alloc, List.getElem?_set, List.length_append,
      List.length_singleton]
    by_cases ha : h.length = a
    · subst ha
      simp
    · simp only [ha, if_false]
      rcases Nat.lt_or_gt_of_ne ha with hlt | hgt
      · rw [List.getElem?_eq_none (by simp; omega), List.getElem?_eq_none (by omega)]
      · rw [List.getElem?_append_left hgt]

/-- C13. The round trip `push_front(v)` then `pop_front()`: on every list and for
every `v`, `pop_front()` returns `v`, and the list has the size and, under forward
iteration, the elements it had before the push. -/
theorem push_front_pop_front_round_trip (l : IntList) (v : Int) (fuel : Nat) :
    ∃ l2, (l.push_front v).pop_front = some (v, l2)
      ∧ l2.size = l.size ∧ l2.elements fuel = l.elements fuel := by
  refine ⟨{ back_ := if l.size_ + 1 = 1 then some l.heap.length else l.back_,
            front_ := l.front_, size_ := l.size_ + 1 - 1,
            heap := Heap.free (l.heap.alloc ⟨v, l.front_⟩).1 l.heap.length }, ?_, ?_, ?_⟩
  · simp [IntList.push_front, IntList.pop_front, IntList.empty, Heap.alloc, Heap.read]
  · simp [IntList.size]
  · simp only [IntList.elements, IntList.begin]
    exact forwardFrom_congr _ _ (fun p => read_alloc_free l.heap _ p) fuel _

/-! #### Lists built by `push_front`, `push_back` and `pop_front` -/

theorem read_alloc (h : Heap) (e : Element) (a : Nat) :
    Heap.read (h.alloc e).1 (some a) = if a = h.length then some e else h.read (some a) := by
  simp only [Heap.read, Heap.alloc]
  by_cases ha : a = h.length
  · subst ha
    simp
  · simp only [ha, if_false]
    rcases Nat.lt_or_gt_of_ne ha with hlt | hgt
    · rw [List.getElem?_append_left hlt]
    · rw [List.getElem?_eq_none (by simp; omega), List.getElem?_eq_none (by omega)]

theorem read_write (h : Heap) (a b : Nat) (e : Element) (ha : a < h.length) :
    Heap.read (h.write a e) (some b) = if a = b then some e else h.read (some b) := by
  simp only [Heap.read, Heap.write, List.getElem?_set, ha, if_true]
  by_cases hab : a = b <;> simp [hab]

theorem read_free (h : Heap) (a b : Nat) :
    Heap.read (h.free a) (some b) = if a = b then none else h.read (some b) := by
  simp only [Heap.read, Heap.free, List.getElem?_set]
  by_cases hab : a = b
  · subst hab
    by_cases ha : a < h.length <;> simp [ha]
  · simp [hab]

theorem read_lt (h : Heap) (a : Nat) (e : Element) (hr : h.read (some a) = some e) :
    a < h.length := by
  by_contra hge
  simp [Heap.read, List.getElem?_eq_none (Nat.le_of_not_lt hge)] at hr

/-- A chain only depends on what reading its addresses returns. -/
theorem chain_congr (h h2 : Heap) (cs : List (Nat × Int)) (p : Ptr)
    (hsame : ∀ c ∈ cs, h2.read (some c.1) = h.read (some c.1)) (hc : Chain h p cs) :
    Chain h2 p cs := by
  induction cs generalizing p with
  | nil => exact hc
  | cons c rest ih =>
    obtain ⟨hp, n, hr, hrest⟩ := hc
    refine ⟨hp, n, ?_, ih n (fun d hd => hsame d (List.mem_cons_of_mem _ hd)) hrest⟩
    rw [hsame c (List.mem_cons_self _ _)]
    exact hr

/-- The addresses of a chain have been handed out. -/
theorem chain_lt (h : Heap) (cs : List (Nat × Int)) (p : Ptr) (hc : Chain h p cs) :
    ∀ c ∈ cs, c.1 < h.length := by
  induction cs generalizing p with
  | nil => simp
  | cons c rest ih =>
    obtain ⟨_, n, hr, hrest⟩ := hc
    intro d hd
    rcases List.mem_cons.1 hd with rfl | hd
    · exact read_lt h _ _ hr
    · exact ih n hrest d hd

/-- Making the last element of a chain point to a further element extends the
chain. -/
theorem chain_snoc (h h2 : Heap) (init : List (Nat × Int)) (b : Nat × Int) (a : Nat)
    (v : Int) (p : Ptr) (hc : Chain h p (init ++ [b]))
    (hnd : ((init ++ [b]).map Prod.fst).Nodup)
    (hsame : ∀ c ∈ init, h2.read (some c.1) = h.read (some c.1))
    (hlast : h2.read (some b.1) = some ⟨b.2, some a⟩)
    (hnew : h2.read (some a) = some ⟨v, none⟩) :
    Chain h2 p (init ++ [b, (a, v)]) := by
  induction init generalizing p with
  | nil =>
    obtain ⟨hp, n, _, _⟩ := hc
    exact ⟨hp, some a, hlast, rfl, none, hnew, rfl⟩
  | cons c rest ih =>
    obtain ⟨hp, n, hr, hrest⟩ := hc
    simp only [List.cons_append, List.map_cons, List.nodup_cons] at hnd
    refine ⟨hp, n, ?_, ih n hrest hnd.2 (fun d hd => hsame d (List.mem_cons_of_mem _ hd))⟩
    rw [hsame c (List.mem_cons_self _ _)]
    exact hr

theorem wf_new : IntList.new.WF [] :=
  ⟨rfl, List.nodup_nil, rfl, by simp⟩

theorem wf_push_front (l : IntList) (cs : List (Nat × Int)) (v : Int) (hwf : l.WF cs) :
    (l.push_front v).WF ((l.heap.length, v) :: cs) := by
  obtain ⟨hc, hnd, hsz, hback⟩ := hwf
  have hlt := chain_lt _ _ _ hc
  refine ⟨⟨rfl, l.front_, ?_, ?_⟩, ?_, ?_, ?_⟩
  · simp [IntList.push_front, read_alloc]
  · refine chain_congr l.heap _ cs _ (fun c hcm => ?_) hc
    simp only [IntList.push_front]
    rw [read_alloc, if_neg (Nat.ne_of_lt (hlt c hcm))]
  · simp only [List.map_cons, List.nodup_cons, List.mem_map, not_exists, not_and]
    exact ⟨fun c hcm he => absurd he (Nat.ne_of_lt (hlt c hcm)), hnd⟩
  · simp [IntList.push_front, hsz]
  · cases cs with
    | nil =>
      simp only [List.length_nil] at hsz
      simp [IntList.push_front, hsz, Heap.alloc]
    | cons c rest =>
      simp only [List.length_cons] at hsz
      simpa [IntList.push_front, hsz] using hback

theorem wf_pop_front (l : IntList) (cs : List (Nat × Int)) (hwf : l.WF cs)
    (r : Int × IntList) (hpop : l.pop_front = some r) :
    ∃ c rest, cs = c :: rest ∧ r.1 = c.2 ∧ r.2.WF rest := by
  obtain ⟨hc, hnd, hsz, hback⟩ := hwf
  cases cs with
  | nil =>
    simp only [List.length_nil] at hsz
    simp [IntList.pop_front, IntList.empty, hsz] at hpop
  | cons c rest =>
    obtain ⟨hp, n, hr, hrest⟩ := hc
    simp only [List.length_cons] at hsz
    simp only [IntList.pop_front, IntList.empty, hsz, hp, hr, Nat.add_one_ne_zero,
      beq_iff_eq, if_false, Option.some.injEq] at hpop
    subst hpop
    simp only [List.map_cons, List.nodup_cons, List.mem_map, not_exists, not_and] at hnd
    refine ⟨c, rest, rfl, rfl, ?_, hnd.2, by simp, ?_⟩
    · refine chain_congr l.heap _ rest _ (fun d hd => ?_) hrest
      show Heap.read (l.heap.free c.1) (some d.1) = _
      rw [read_free, if_neg (fun he => hnd.1 d hd he.symm)]
    · intro d hd
      cases rest with
      | nil => simp at hd
      | cons c2 rest2 => exact hback d (by simpa using hd)

/-- The last element of a chain points to `nullptr`. -/
theorem chain_last (h : Heap) (init : List (Nat × Int)) (b : Nat × Int) (p : Ptr)
    (hc : Chain h p (init ++ [b])) : h.read (some b.1) = some ⟨b.2, none⟩ := by
  induction init generalizing p with
  | nil =>
    obtain ⟨_, n, hr, hn⟩ := hc
    rw [hr, show n = none from hn]
  | cons c rest ih =>
    obtain ⟨_, n, _, hrest⟩ := hc
    exact ih n hrest

theorem wf_push_back (l : IntList) (cs : List (Nat × Int)) (v : Int) (hwf : l.WF cs) :
    ∃ l2, l.push_back v = some l2 ∧ l2.WF (cs ++ [(l.heap.length, v)]) := by
  obtain ⟨hc, hnd, hsz, hback⟩ := hwf
  have hlt := chain_lt _ _ _ hc
  rcases List.eq_nil_or_concat cs with rfl | ⟨init, b, rfl⟩
  · simp only [List.length_nil] at hsz
    refine ⟨_, by simp [IntList.push_back, IntList.empty, hsz]; rfl, ?_⟩
    refine ⟨⟨rfl, none, ?_, rfl⟩, by simp, by simp, by simp [Heap.alloc]⟩
    show Heap.read (l.heap.alloc ⟨v, none⟩).1 (some l.heap.length) = _
    rw [read_alloc, if_pos rfl]
  · rw [List.concat_eq_append] at hc hnd hsz hback hlt ⊢
    have hb : l.back_ = some b.1 := hback b (by simp [List.getLast?_concat])
    have hblt : b.1 < l.heap.length := hlt b (by simp)
    have hlast := chain_last _ _ _ _ hc
    have hread1 : Heap.read (l.heap.alloc ⟨v, none⟩).1 (some b.1) = some ⟨b.2, none⟩ := by
      rw [read_alloc, if_neg (Nat.ne_of_lt hblt), hlast]
    have hlen1 : b.1 < (l.heap.alloc ⟨v, none⟩).1.length := by
      simp only [Heap.alloc, List.length_append, List.length_singleton]; omega
    simp only [List.length_append, List.length_singleton] at hsz
    refine ⟨{ back_ := some l.heap.length, front_ := l.front_, size_ := l.size_ + 1,
              heap := Heap.write (l.heap.alloc ⟨v, none⟩).1 b.1 ⟨b.2, some l.heap.length⟩ },
      ?_, ?_, ?_, ?_, ?_⟩
    · simp only [IntList.push_back, IntList.empty, hsz, hb, hread1]
      simp [Heap.alloc]
    · rw [List.append_assoc]
      refine chain_snoc l.heap _ init b l.heap.length v _ hc hnd (fun c hcm => ?_) ?_ ?_
      · have hne : b.1 ≠ c.1 := by
          intro he
          rw [List.map_append, List.nodup_append] at hnd
          exact hnd.2.2 (List.mem_map_of_mem _ hcm) (by simp [he])
        show Heap.read (Heap.write _ _ _) _ = _
        rw [read_write _ _ _ _ hlen1, if_neg hne, read_alloc,
          if_neg (Nat.ne_of_lt (hlt c (by simp [hcm])))]
      · show Heap.read (Heap.write _ _ _) _ = _
        rw [read_write _ _ _ _ hlen1, if_pos rfl]
      · show Heap.read (Heap.write _ _ _) _ = _
        rw [read_write _ _ _ _ hlen1, if_neg (Nat.ne_of_lt hblt), read_alloc, if_pos rfl]
    · rw [List.map_append, List.nodup_append]
      refine ⟨hnd, by simp, ?_⟩
      intro a ha1 ha2
      simp only [List.map_cons, List.map_nil, List.mem_singleton] at ha2
      obtain ⟨c, hcm, rfl⟩ := List.mem_map.1 ha1
      exact absurd ha2 (Nat.ne_of_lt (hlt c hcm))
    · simp [hsz]
    · intro d hd
      rw [List.getLast?_concat] at hd
      simp only [Option.mem_def, Option.some.injEq] at hd
      subst hd
      rfl

/-- Every list built from the empty list by `push_front`, `push_back` and `pop_front`
calls satisfies the representation invariant. -/
theorem wf_calls (ops : List Call) (l l2 : IntList) (cs : List (Nat × Int))
    (hwf : l.WF cs) (hrun : l.calls ops = some l2) : ∃ cs2, l2.WF cs2 := by
  induction ops generalizing l cs with
  | nil =>
    simp only [IntList.calls, Option.some.injEq] at hrun
    exact ⟨cs, hrun ▸ hwf⟩
  | cons op ops ih =>
    simp only [IntList.calls] at hrun
    cases op with
    | push_front v =>
      simp only [IntList.call] at hrun
      exact ih _ _ (wf_push_front l cs v hwf) hrun
    | push_back v =>
      obtain ⟨l1, e1, w1⟩ := wf_push_back l cs v hwf
      simp only [IntList.call, e1] at hrun
      exact ih _ _ w1 hrun
    | pop_front =>
      simp only [IntList.call] at hrun
      cases hpop : l.pop_front with
      | none => simp [hpop] at hrun
      | some r =>
        obtain ⟨c, rest, _, _, w1⟩ := wf_pop_front l cs hwf r hpop
        simp only [hpop] at hrun
        exact ih _ _ w1 hrun

/-- Forward iteration over a chain reads its values, given a round per element. -/
theorem forwardFrom_chain (l : IntList) (cs : List (Nat × Int)) (it : Iterator)
    (fuel : Nat) (hc : Chain l.heap it.current_ cs) :
    l.forwardFrom (cs.length + fuel) it = some (cs.map Prod.snd) := by
  induction cs generalizing it with
  | nil =>
    have hp : it.current_ = none := hc
    cases fuel <;>
      simp [IntList.forwardFrom, IntList.end_, Iterator.ne, Iterator.eq, hp]
  | cons c rest ih =>
    obtain ⟨hp, n, hr, hrest⟩ := hc
    have e : (c :: rest).length + fuel = (rest.length + fuel) + 1 := by
      simp only [List.length_cons]; omega
    rw [e]
    simp only [IntList.forwardFrom, IntList.end_, Iterator.ne, Iterator.eq, hp,
      Iterator.deref, Iterator.incr, hr]
    simp [ih ⟨n⟩ hrest]

/-- The loop of `operator==` over two chains of the same length compares their
values, given a round per element. -/
theorem eqLoop_chain (l rhs : IntList) (ds cs : List (Nat × Int)) (a b : Iterator)
    (fuel : Nat) (hca : Chain l.heap a.current_ cs) (hcb : Chain rhs.heap b.current_ ds)
    (hlen : cs.length = ds.length) :
    l.eqLoop rhs (ds.length + fuel) a b
      = some (decide (cs.map Prod.snd = ds.map Prod.snd)) := by
  induction ds generalizing cs a b with
  | nil =>
    have hp : b.current_ = none := hcb
    have hcs : cs = [] := List.length_eq_zero.1 hlen
    subst hcs
    cases fuel <;>
      simp [IntList.eqLoop, IntList.end_, Iterator.ne, Iterator.eq, hp]
  | cons d rest ih =>
    cases cs with
    | nil => simp at hlen
    | cons c crest =>
      obtain ⟨hpa, na, hra, hresta⟩ := hca
      obtain ⟨hpb, nb, hrb, hrestb⟩ := hcb
      have e : (d :: rest).length + fuel = (rest.length + fuel) + 1 := by
        simp only [List.length_cons]; omega
      rw [e]
      simp only [IntList.eqLoop, IntList.end_, Iterator.ne, Iterator.eq, hpa, hpb,
        Iterator.deref, Iterator.incr, hra, hrb]
      by_cases hv : d.2 = c.2
      · have := ih crest ⟨na⟩ ⟨nb⟩ hresta hrestb (by simpa using hlen)
        simp [hv, this]
      · have hv2 : ¬ c.2 = d.2 := fun h => hv h.symm
        simp [hv, hv2]

/-- C14. IntList equality: for two lists each built from the empty list by
`push_front`, `push_back` and `pop_front` calls, forward iteration returns the
elements of each, `a == b` returns true if and only if the two element sequences are
the same, and `a != b` returns the negation. A round per element of the right-hand
list is enough for the loops to finish. -/
theorem eq_iff_same_elements (ca cb : List Call) (a b : IntList) (fuel : Nat)
    (ha : IntList.new.calls ca = some a) (hb : IntList.new.calls cb = some b) :
    ∃ xs ys, a.elements (a.size + fuel) = some xs ∧ b.elements (b.size + fuel) = some ys
      ∧ xs.length = a.size ∧ ys.length = b.size
      ∧ IntList.eq (b.size + fuel) a b = some (decide (xs = ys))
      ∧ IntList.ne (b.size + fuel) a b = some (!decide (xs = ys)) := by
  obtain ⟨cs, hca, _, hsa, _⟩ := wf_calls ca _ a [] wf_new ha
  obtain ⟨ds, hcb, _, hsb, _⟩ := wf_calls cb _ b [] wf_new hb
  have heq : IntList.eq (b.size + fuel) a b
      = some (decide (cs.map Prod.snd = ds.map Prod.snd)) := by
    simp only [IntList.eq, IntList.size]
    by_cases hsz : a.size_ = b.size_
    · rw [if_neg (not_not.2 hsz), hsb]
      exact eqLoop_chain a b ds cs a.begin b.begin fuel hca hcb (by rw [← hsa, ← hsb, hsz])
    · rw [if_pos hsz]
      have hne : cs.map Prod.snd ≠ ds.map Prod.snd := by
        intro he
        apply hsz
        have := congrArg List.length he
        simpa [← hsa, ← hsb] using this
      simp [hne]
  refine ⟨cs.map Prod.snd, ds.map Prod.snd, ?_, ?_, by simp [IntList.size, hsa],
    by simp [IntList.size, hsb], heq, ?_⟩
  · simp only [IntList.elements, IntList.size, hsa]
    exact forwardFrom_chain a cs a.begin fuel hca
  · simp only [IntList.elements, IntList.size, hsb]
    exact forwardFrom_chain b ds b.begin fuel hcb
  · simp only [IntList.ne, heq]

/-- An instance of C14: the list built by `push_back(2)`, `push_front(1)` and the list
built by `push_front(7)`, `push_back(1)`, `pop_front()`, `push_back(2)`. -/
theorem eq_iff_same_elements_witness :
    ∃ a b, IntList.new.calls [.push_back 2, .push_front 1] = some a
      ∧ IntList.new.calls [.push_front 7, .push_back 1, .pop_front, .push_back 2] = some b
      ∧ ∃ xs ys, a.elements (a.size + 0) = some xs ∧ b.elements (b.size + 0) = some ys
        ∧ xs.length = a.size ∧ ys.length = b.size
        ∧ IntList.eq (b.size + 0) a b = some (decide (xs = ys))
        ∧ IntList.ne (b.size + 0) a b = some (!decide (xs = ys)) :=
  ⟨_, _, rfl, rfl,
    eq_iff_same_elements [.push_back 2, .push_front 1]
      [.push_front 7, .push_back 1, .pop_front, .push_back 2] _ _ 0 rfl rfl⟩

end LinkedList
